import Mathlib

/-!
# SentinelAI content risk-analysis pipeline: a verification development

Shallow embedding of `sentinelai/services/analyzer.py` (pattern-based
threat scoring, entity extraction, sentiment, PII anonymization,
explanation and mitigation synthesis) and of the document-chunking and
aggregation logic of `sentinelai/ui/pages/analysis_studio.py`.

Python strings are modelled as `List Char`; the ASCII fragments of the
`re` character classes `\w`, `\d`, `\s` are modelled exactly.  Scores are
exact rationals (the code only ever produces integer-valued scores, so
no floating-point rounding is observable in any quantity studied here).
Fields of the result record that are random or wall-clock dependent
(`id`, `timestamp`, `processing_time_ms`) and the hexadecimal
`content_hash` are omitted: no property below mentions them.  The Claude
call of `_analyze_with_claude` is an external network capability; it is
modelled by its outcome, an `Option (List Char)` that is `none` exactly
when the call fails or is not configured (the `except` handler of
`_analyze_with_claude` returns `None` on any failure).
-/

set_option linter.unusedVariables false

/-! ## Character classes (ASCII fragment of Python `re`) -/

def isWordChar (c : Char) : Bool := c.isAlphanum || c = '_'

def isDigitChar (c : Char) : Bool := c.isDigit

def isSpaceChar (c : Char) : Bool :=
  c = ' ' || c = '\t' || c = '\n' || c = '\r' || c = '\x0b' || c = '\x0c'

/-- The apostrophe character (codepoint 39), used by the
`they don'?t want you to know` rule. -/
def apos : Char := Char.ofNat 39

def wordO : Option Char → Bool
  | some c => isWordChar c
  | none => false

def headO : List Char → Option Char
  | [] => none
  | c :: _ => some c

/-- Python `\b`: the position between previous character `p` and the rest
`s` is a word boundary iff exactly one side is a word character. -/
def isBoundary (p : Option Char) (s : List Char) : Bool :=
  wordO p != wordO (headO s)

/-! ## A small backtracking regex engine

Exactly the constructs the analyzer needs: single-character predicates,
sequencing, prioritized alternation and word boundaries.  Bounded
repetition, `?`, and `+` are compiled to greedy alternation chains, which
reproduces the leftmost, greedy, backtracking semantics of Python `re`.
(The engine was differentially tested against CPython `re` on the
repository patterns.) -/

inductive RE where
  | eps : RE
  | tok : (Char → Bool) → RE
  | seq : RE → RE → RE
  | alt : RE → RE → RE
  | wb : RE

/-- CPS matcher: `mtch r p s k` tries to match `r` at the start of `s`
(with `p` the character just before `s`, for `\b`), and calls the
continuation `k` on the state after each candidate parse, in backtracking
preference order, returning the first success. -/
def mtch : RE → Option Char → List Char → (Option Char → List Char → Option (List Char)) →
    Option (List Char)
  | .eps, p, s, k => k p s
  | .tok _, _, [], _ => none
  | .tok f, _, c :: s, k => if f c then k (some c) s else none
  | .seq a b, p, s, k => mtch a p s (fun p' s' => mtch b p' s' k)
  | .alt a b, p, s, k => (mtch a p s k).orElse (fun _ => mtch b p s k)
  | .wb, p, s, k => if isBoundary p s then k p s else none

/-- Match `r` exactly at the current position; returns the rest of the
string after the (preferred) match. -/
def matchAt (r : RE) (p : Option Char) (s : List Char) : Option (List Char) :=
  mtch r p s (fun _ rest => some rest)

def lit (c : Char) : RE := .tok (fun x => x = c)

def strR (s : String) : RE := s.data.foldr (fun c r => .seq (lit c) r) .eps

def never : RE := .tok (fun _ => false)

def alts (l : List RE) : RE := l.foldr .alt never

def wordAlts (l : List String) : RE := alts (l.map strR)

/-- Greedy `r{0,n}`: prefer consuming another `r` over stopping. -/
def optChain (r : RE) : Nat → RE
  | 0 => .eps
  | n + 1 => .alt (.seq r (optChain r n)) .eps

def nseq (r : RE) : Nat → RE
  | 0 => .eps
  | n + 1 => .seq r (nseq r n)

/-- Greedy `r{lo,hi}`. -/
def repRange (r : RE) (lo hi : Nat) : RE := .seq (nseq r lo) (optChain r (hi - lo))

/-- Greedy `p+`, with chain bound `n` (instantiated with the length of the
subject string, which no run of matched characters can exceed). -/
def plusB (p : Char → Bool) (n : Nat) : RE := .seq (.tok p) (optChain (.tok p) n)

def seqs (l : List RE) : RE := l.foldr .seq .eps

/-- Python `.` (matches everything except a newline). -/
def isDot (c : Char) : Bool := c != '\n'

def dots (n : Nat) : RE := optChain (.tok isDot) n

/-- `re.search`: leftmost match; returns the matched substring (group 0). -/
def searchG (r : RE) : Option Char → List Char → Option (List Char)
  | p, s =>
    match matchAt r p s with
    | some rest => some (s.take (s.length - rest.length))
    | none =>
      match s with
      | [] => none
      | c :: t => searchG r (some c) t

def reSearch (r : RE) (s : List Char) : Option (List Char) := searchG r none s

/-- The character preceding the rest of the string after consuming `m`
(falling back to the previous context `p` when `m` is empty). -/
def lastO (p : Option Char) (m : List Char) : Option Char :=
  match m.getLast? with
  | some c => some c
  | none => p

/-- One pass of Python `re.sub`: global substitution, scanning left to
right, replacing each leftmost non-overlapping match by `repl`.  Word
boundaries are evaluated against the original characters, as in CPython
(`re.sub` scans the input string, not its own output).  `fuel` bounds the
recursion; `s.length + 1` is always enough because each step consumes at
least one input character (matches of the analyzer patterns are never
empty, and the impossible empty-match case falls through to `s`). -/
def subA (r : RE) (repl : List Char) : Nat → Option Char → List Char → List Char
  | 0, _, s => s
  | fuel + 1, p, s =>
    match matchAt r p s with
    | some rest =>
      if rest.length < s.length then
        repl ++ subA r repl fuel (lastO p (s.take (s.length - rest.length))) rest
      else s
    | none =>
      match s with
      | [] => []
      | c :: t => c :: subA r repl fuel (some c) t

def pysub (r : RE) (repl : List Char) (s : List Char) : List Char :=
  subA r repl (s.length + 1) none s

/-! ## `_anonymize`: the three PII substitution passes -/

def emailLocalCls (c : Char) : Bool := isWordChar c || c = '.' || c = '+' || c = '-'

def emailDomCls (c : Char) : Bool := isWordChar c || c = '-'

/-- `\b[\w.+-]+@[\w-]+\.\w+\b` -/
def emailRE (n : Nat) : RE :=
  seqs [.wb, plusB emailLocalCls n, lit '@', plusB emailDomCls n, lit '.', plusB isWordChar n, .wb]

def phoneSepCls (c : Char) : Bool :=
  isDigitChar c || isSpaceChar c || c = '-' || c = '(' || c = ')' || c = '.'

/-- `\b(\+?\d[\d\s\-().]{7,14}\d)\b` -/
def phoneRE : RE :=
  seqs [.wb, optChain (lit '+') 1, .tok isDigitChar, repRange (.tok phoneSepCls) 7 14,
    .tok isDigitChar, .wb]

def ipOctet : RE := repRange (.tok isDigitChar) 1 3

/-- `\b\d{1,3}\.\d{1,3}\.\d{1,3}\.\d{1,3}\b` -/
def ipRE : RE := seqs [.wb, ipOctet, lit '.', ipOctet, lit '.', ipOctet, lit '.', ipOctet, .wb]

def emailToken : List Char := ("[EMAIL REDACTED]").data

def phoneToken : List Char := ("[PHONE REDACTED]").data

def ipToken : List Char := ("[IP REDACTED]").data

/-- `_anonymize`: email, then phone, then IP substitution, each pass
operating on the output of the previous one. -/
def _anonymize (text : List Char) : List Char :=
  let t1 := pysub (emailRE text.length) emailToken text
  let t2 := pysub phoneRE phoneToken t1
  pysub ipRE ipToken t2

/-! ## `PATTERNS` and `_pattern_score` -/

def vio1 : RE := seqs [.wb,
  wordAlts ["kill", "murder", "shoot", "bomb", "explode", "attack", "assault", "stab",
    "shoot", "massacre"], .wb]

def vio2 : RE := seqs [.wb,
  wordAlts ["weapon", "gun", "knife", "explosive", "grenade", "rpg", "ied"], .wb]

def vio3 : RE := seqs [.wb, wordAlts ["threat", "threaten", "harm", "hurt", "destroy"], .wb,
  dots 30, .wb, wordAlts ["you", "them", "people", "everyone"], .wb]

def cyb1 : RE := seqs [.wb,
  alts [strR ("malware"), strR ("ransomware"), strR ("phishing"), strR ("exploit"),
    strR ("vulnerability"), seqs [strR ("zero"), dots 1, strR ("day")], strR ("ddos")], .wb]

def cyb2 : RE := seqs [.wb,
  wordAlts ["hack", "breach", "compromise", "infiltrate", "backdoor", "payload", "injection"], .wb]

def cyb3 : RE := seqs [.wb,
  alts [.seq (strR ("credential")) (optChain (lit 's') 1), strR ("password"), strR ("token"),
    seqs [strR ("api"), dots 1, strR ("key")]],
  dots 20, .wb, wordAlts ["steal", "leak", "dump", "expose"], .wb]

def soc1 : RE := seqs [.wb,
  wordAlts ["click here", "verify your", "confirm your", "account suspended", "urgent action"],
  .wb]

def soc2 : RE := seqs [.wb,
  wordAlts ["prize", "winner", "congratulations", "claim now", "limited time"], .wb]

def soc3 : RE := seqs [.wb, wordAlts ["bank", "paypal", "amazon", "apple", "microsoft"],
  dots 30, .wb, wordAlts ["verify", "confirm", "update", "suspend"], .wb]

def hat1 : RE := seqs [.wb, wordAlts ["hate", "despise", "inferior", "subhuman"],
  dots 20, .wb, wordAlts ["race", "religion", "gender", "ethnic"], .wb]

def hat2 : RE := seqs [.wb,
  wordAlts ["extremist", "radical", "terrorist", "jihad", "supremacist"], .wb]

def mis1 : RE := seqs [.wb,
  alts [strR ("breaking"), strR ("exposed"),
    seqs [strR ("they don"), optChain (lit apos) 1, strR ("t want you to know")],
    strR ("secret"), seqs [strR ("cover"), dots 1, strR ("up")]], .wb]

def mis2 : RE := seqs [.wb,
  wordAlts ["proven", "scientifically proven", "doctors hate", "suppressed"], .wb]

def mis3 : RE := seqs [.wb, wordAlts ["conspiracy", "hoax", "fake", "false flag"], .wb]

def sus1 : RE := seqs [.wb,
  alts [.seq (strR ("coordinate")) (optChain (lit 's') 1), strR ("location"), strR ("meet at"),
    strR ("rendezvous"), seqs [strR ("drop"), dots 1, strR ("off")],
    seqs [strR ("pick"), dots 1, strR ("up")]], .wb,
  dots 50, .wb, wordAlts ["tonight", "tomorrow", "after dark"], .wb]

def sus2 : RE := seqs [.wb,
  wordAlts ["encrypted", "secure channel", "no trace", "burner", "anonymous"], .wb]

def sus3 : RE := seqs [.wb, wordAlts ["shipment", "package", "cargo", "delivery"],
  dots 30, .wb, wordAlts ["location", "coordinates", "address"], .wb]

def dex1 : RE := seqs [.wb, wordAlts ["exfil", "exfiltrate", "extract", "dump", "steal", "leak"],
  dots 30, .wb, wordAlts ["data", "database", "records", "files"], .wb]

def dex2 : RE := seqs [.wb, wordAlts ["send", "transfer", "upload"],
  dots 20, .wb, wordAlts ["to my", "to the", "private", "external"], .wb,
  dots 20, .wb, wordAlts ["server", "drive", "cloud"], .wb]

/-- The rule taxonomy, in the declaration order of the Python dict. -/
def PATTERNS : List (String × List RE) :=
  [("violence", [vio1, vio2, vio3]),
   ("cybersecurity", [cyb1, cyb2, cyb3]),
   ("social_engineering", [soc1, soc2, soc3]),
   ("hate_speech", [hat1, hat2]),
   ("misinformation", [mis1, mis2, mis3]),
   ("suspicious_activity", [sus1, sus2, sus3]),
   ("data_exfiltration", [dex1, dex2])]

def lowerL (s : List Char) : List Char := s.map Char.toLower

def weightOf (c : String) : Nat :=
  if c = "violence" then 35
  else if c = "cybersecurity" then 28
  else if c = "social_engineering" then 22
  else if c = "hate_speech" then 30
  else if c = "misinformation" then 15
  else if c = "suspicious_activity" then 25
  else if c = "data_exfiltration" then 28
  else 0

def sumWeights (cs : List String) : Nat := (cs.map weightOf).sum

/-- `_pattern_score`: lowercase the text, collect for each category the
group-0 match of every rule that fires, keep categories with at least one
match (in taxonomy order), and return `min 95 (sum of hit weights)`
together with the hit map. -/
def _pattern_score (text : List Char) : Nat × List (String × List (List Char)) :=
  let tl := lowerL text
  let hits := PATTERNS.filterMap fun cp =>
    let matched := cp.2.filterMap fun p => reSearch p tl
    if matched.isEmpty then none else some (cp.1, matched)
  (min 95 (sumWeights (hits.map (·.1))), hits)

/-! ## `_extract_entities` -/

def WEAPON_ENTITIES : List String :=
  ["gun", "rifle", "pistol", "bomb", "explosive", "grenade", "missile",
   "rpg", "ied", "weapon", "ammunition", "detonator", "c4", "tnt"]

def THREAT_ENTITIES : List String :=
  ["threat", "attack", "target", "victim", "hostage", "kidnap",
   "assassination", "execute", "eliminate"]

def LOCATION_RISK_TERMS : List String :=
  ["warehouse", "coordinates", "safe house", "drop point",
   "rendezvous", "border", "checkpoint", "facility"]

def isPrefixL : List Char → List Char → Bool
  | [], _ => true
  | _ :: _, [] => false
  | a :: as, b :: bs => a = b && isPrefixL as bs

/-- Python substring containment `n in h`. -/
def containsSub (n h : List Char) : Bool :=
  isPrefixL n h ||
    (match h with
     | [] => false
     | _ :: t => containsSub n t)

/-- `_extract_entities`: case-insensitive keyword containment over the
three entity classes, empty classes omitted (in the dict order
weapons, threat_terms, location_risk). -/
def _extract_entities (text : List Char) : List (String × List String) :=
  let tl := lowerL text
  let found :=
    [("weapons", WEAPON_ENTITIES.filter fun w => containsSub w.data tl),
     ("threat_terms", THREAT_ENTITIES.filter fun t => containsSub t.data tl),
     ("location_risk", LOCATION_RISK_TERMS.filter fun l => containsSub l.data tl)]
  found.filter fun kv => !kv.2.isEmpty

def entGet (es : List (String × List String)) (k : String) : List String :=
  (es.lookup k).getD []

/-! ## `_sentiment_score` (exact rational arithmetic) -/

def negative_terms : List String :=
  ["hate", "angry", "terrible", "awful", "kill", "threat", "danger",
   "attack", "destroy", "furious", "outrage", "alarming", "crisis"]

def positive_terms : List String :=
  ["great", "wonderful", "love", "happy", "excellent", "beautiful",
   "fantastic", "amazing", "good", "nice", "excited", "pleased"]

/-- `_sentiment_score`.  The polarity `(pos - neg) / total` and the two
thresholds `0.3` and `-0.3` are exact rationals, built with `mkRat` (the
value of `mkRat a b` for `b ≠ 0` is exactly the fraction `a / b`, and it
evaluates by kernel reduction, which the `@[irreducible]` field division
of `ℚ` does not). -/
def _sentiment_score (text : List Char) : String × ℚ :=
  let tl := lowerL text
  let neg := (negative_terms.filter fun t => containsSub t.data tl).length
  let pos := (positive_terms.filter fun t => containsSub t.data tl).length
  let total := neg + pos
  if total = 0 then ("Neutral", 0)
  else
    let score : ℚ := mkRat ((pos : ℤ) - (neg : ℤ)) total
    if score > mkRat 3 10 then ("Positive", score)
    else if score < mkRat (-3) 10 then ("Negative", |score|)
    else ("Neutral", 0)

/-! ## `_risk_level` -/

def _risk_level (score : ℚ) : String :=
  if score ≥ 75 then "CRITICAL"
  else if score ≥ 55 then "HIGH"
  else if score ≥ 30 then "MEDIUM"
  else if score ≥ 10 then "LOW"
  else "SAFE"

/-! ## `_build_explanation` -/

/-- Python `str.title()` on the ASCII fragment: capitalize the first
letter of each run of letters, lowercase the rest. -/
def pyTitleGo : Bool → List Char → List Char
  | _, [] => []
  | prevA, c :: t => (if c.isAlpha && !prevA then c.toUpper else c.toLower) :: pyTitleGo c.isAlpha t

/-- `c.replace("_", " ").title()`, the category display name. -/
def strTitle (s : String) : String :=
  String.mk (pyTitleGo false (s.data.map fun c => if c = '_' then ' ' else c))

def joinSep (sep : List Char) : List (List Char) → List Char
  | [] => []
  | [x] => x
  | x :: xs => x ++ sep ++ joinSep sep xs

def hasCat (hits : List (String × List (List Char))) (c : String) : Bool :=
  hits.any fun p => p.1 = c

def countLine (cats : List String) : List Char :=
  ("Detected threat indicators across ").data ++ (toString cats.length).data ++
    (" category(ies): ").data ++ (String.intercalate (", ") (cats.map strTitle)).data ++
    (".").data

/-- The six category-specific sentences, in source order; note that
`data_exfiltration` has no sentence. -/
def categoryLines (hits : List (String × List (List Char))) : List (List Char) :=
  (if hasCat hits ("violence") then
    [("Content contains language associated with violence or physical threats.").data] else []) ++
  (if hasCat hits ("cybersecurity") then
    [("Cybersecurity threat patterns identified — potential malware or attack activity.").data]
   else []) ++
  (if hasCat hits ("social_engineering") then
    [("Social engineering indicators found — possible phishing or manipulation attempt.").data]
   else []) ++
  (if hasCat hits ("hate_speech") then
    [("Hate speech or extremist content detected.").data] else []) ++
  (if hasCat hits ("misinformation") then
    [("Misinformation / disinformation markers present.").data] else []) ++
  (if hasCat hits ("suspicious_activity") then
    [("Suspicious coordination language detected — possible clandestine activity.").data] else [])

def entityLines (entities : List (String × List String)) : List (List Char) :=
  (if !(entGet entities ("weapons")).isEmpty then
    [("Weapon-related entities: ").data ++
      (String.intercalate (", ") (entGet entities ("weapons"))).data ++ (".").data] else []) ++
  (if !(entGet entities ("threat_terms")).isEmpty then
    [("Direct threat language: ").data ++
      (String.intercalate (", ") (entGet entities ("threat_terms"))).data ++ (".").data]
   else []) ++
  (if !(entGet entities ("location_risk")).isEmpty then
    [("Location/operational security terms: ").data ++
      (String.intercalate (", ") (entGet entities ("location_risk"))).data ++ (".").data]
   else [])

def _build_explanation (score : ℚ) (hits : List (String × List (List Char)))
    (entities : List (String × List String)) (sentiment : String) : List Char :=
  let parts :=
    if hits.isEmpty && entities.isEmpty then
      [("No significant threat indicators detected in this content.").data,
       ("The text appears benign based on pattern analysis.").data]
    else
      (if hits.isEmpty then [] else [countLine (hits.map (·.1))]) ++
      categoryLines hits ++ entityLines entities
  let parts := parts ++
    (if sentiment = "Negative" then [("Overall sentiment is strongly negative.").data] else [])
  joinSep (" ").data parts

/-! ## `_mitigation_steps` -/

def levelSteps (level : String) : List String :=
  if level = "CRITICAL" then
    ["🔴 IMMEDIATE ACTION: Escalate to security team / incident response.",
     "🔒 Block and preserve the source for forensic analysis."]
  else if level = "HIGH" then
    ["🟠 Flag for urgent review by human analyst.",
     "📋 Document incident and cross-reference with known threat actors."]
  else []

/-- The six category-specific action pairs, in source order; note that
`data_exfiltration` has no pair. -/
def categorySteps (hits : List (String × List (List Char))) : List String :=
  (if hasCat hits ("cybersecurity") then
    ["🛡️ Run endpoint scan; isolate affected systems if necessary.",
     "🔑 Rotate credentials and invalidate active sessions."] else []) ++
  (if hasCat hits ("social_engineering") then
    ["📧 Do not click links or provide credentials. Report as phishing.",
     "🎓 Issue security awareness reminder to affected team/users."] else []) ++
  (if hasCat hits ("violence") then
    ["⚠️ Notify appropriate authorities if credible and imminent.",
     "📍 Preserve evidence chain for potential legal action."] else []) ++
  (if hasCat hits ("hate_speech") then
    ["🚫 Remove content from platform per community guidelines.",
     "📝 Report to platform trust & safety team."] else []) ++
  (if hasCat hits ("misinformation") then
    ["✅ Fact-check against verified sources before sharing.",
     "🏷️ Label content as potentially misleading if platform allows."] else []) ++
  (if hasCat hits ("suspicious_activity") then
    ["🕵️ Initiate deeper investigation of communication context.",
     "🔗 Map relationship network around this source."] else [])

def fallbackSteps : List String :=
  ["✅ No immediate action required — continue routine monitoring.",
   "📊 Log for trend analysis and baseline comparison."]

def _mitigation_steps (hits : List (String × List (List Char))) (score : ℚ) : List String :=
  let steps := levelSteps (_risk_level score) ++ categorySteps hits
  if steps.isEmpty then fallbackSteps else steps

/-! ## `analyze_text` -/

def entityBoost (nWeapons nThreat nLocation : Nat) : Nat :=
  nWeapons * 8 + nThreat * 10 + nLocation * 4

/-- `min(97.0, pattern_score + entity_boost)`.  Both operands are
naturals (the category weights and per-entity boosts are integers), so
the float computation of the source is exactly the natural-number
`min 97 (pattern_score + entity_boost)`, carried to `ℚ` by the cast in
`analyze_text`. -/
def riskScoreOf (patternScore boost : Nat) : Nat :=
  min 97 (patternScore + boost)

/-- `not text or not text.strip()`. -/
def _isBlank (text : List Char) : Bool :=
  text.isEmpty || (text.dropWhile isSpaceChar).isEmpty

def emptyInputMsg : List Char := ("Empty input provided.").data

structure AnalysisResult where
  source : String
  content_preview : List Char
  risk_score : ℚ
  risk_level : String
  flagged : Bool
  categories : List String
  entities : List (String × List String)
  sentiment : String
  pattern_hits : List (String × List (List Char))
  explanation : List Char
  mitigation_steps : List String
  anonymized : Bool
  model : String
deriving DecidableEq

/-- The body of `analyze_text` below its empty-input guard: the full
result record for a non-blank input.  `useClaude` is the conjunction
`use_claude and api_key` of the source; `claudeOutcome` is the value
returned by `_analyze_with_claude` (which is `none` on any failure of
the external capability). -/
def analyzeCore (text : List Char) (anonymize : Bool) (source : String)
    (useClaude : Bool) (claudeOutcome : Option (List Char)) : AnalysisResult :=
    let processed := if anonymize then _anonymize text else text
    let ps := _pattern_score processed
    let pattern_score := ps.1
    let hits := ps.2
    let entities := _extract_entities processed
    let sent := _sentiment_score processed
    let entity_boost := entityBoost (entGet entities ("weapons")).length
      (entGet entities ("threat_terms")).length (entGet entities ("location_risk")).length
    let raw_score : ℚ := (riskScoreOf pattern_score entity_boost : ℚ)
    let claude_reasoning := if useClaude then claudeOutcome else none
    let risk_score := raw_score
    let risk_level := _risk_level risk_score
    let categories := hits.map fun cp => strTitle cp.1
    let explanation0 := _build_explanation risk_score hits entities sent.1
    let explanation :=
      match claude_reasoning with
      | some cr =>
        ("**AI Analysis:** ").data ++ cr ++ ("\n\n**Pattern Analysis:** ").data ++ explanation0
      | none => explanation0
    let mitigation := _mitigation_steps hits risk_score
    { source := source
      content_preview := text.take 200 ++ (if 200 < text.length then ("...").data else [])
      risk_score := risk_score
      risk_level := risk_level
      flagged := decide (risk_score ≥ 30)
      categories := categories
      entities := entities
      sentiment := sent.1
      pattern_hits := hits
      explanation := explanation
      mitigation_steps := mitigation
      anonymized := anonymize
      model := "SentinelAI Pattern Engine" ++ (if claude_reasoning.isSome then " + Claude" else "") }

/-- `analyze_text`: the empty-input guard, then the core pipeline. -/
def analyze_text (text : List Char) (anonymize : Bool) (source : String)
    (useClaude : Bool) (claudeOutcome : Option (List Char)) :
    Except (List Char) AnalysisResult :=
  if _isBlank text then .error emptyInputMsg
  else .ok (analyzeCore text anonymize source useClaude claudeOutcome)

/-! ## Document chunking and aggregation (`analysis_studio.py`) -/

/-- Python `range(0, stop, step)` for `step > 0`. -/
def pyRange (stop step : Nat) : List Nat := List.range' 0 ((stop + step - 1) / step) step

/-- `chunks = [content[i:i+2000] for i in range(0, min(len(content), 10000), 2000)]` -/
def docChunks (content : List Char) : List (List Char) :=
  (pyRange (min content.length 10000) 2000).map fun i => (content.drop i).take 2000

/-- Only the first 5 chunks are analyzed (`chunks[:5]`). -/
def analyzedChunks (content : List Char) : List (List Char) :=
  (docChunks content).take 5

/-- `x.get("risk_score", 0)`: an error result has no risk score. -/
def resScore (r : Except (List Char) AnalysisResult) : ℚ :=
  match r with
  | .ok a => a.risk_score
  | .error _ => 0

/-- Python `max(xs, key)` seeded with accumulator `b`: replaces the
current maximum only on strictly greater key, so the first maximal
element of the iterable wins. -/
def pyMaxBy {α : Type} (key : α → ℚ) : α → List α → α
  | b, [] => b
  | b, x :: xs => pyMaxBy key (if key x > key b then x else b) xs

/-- `best = max(results, key=lambda x: x.get("risk_score", 0))`;
`none` models the `ValueError` of `max` on an empty list. -/
def bestResult (rs : List (Except (List Char) AnalysisResult)) :
    Option (Except (List Char) AnalysisResult) :=
  match rs with
  | [] => none
  | x :: xs => some (pyMaxBy resScore x xs)



/-! ## Declarative semantics of the engine (for the idempotence proof) -/

/-- `MStep r (p, s) (p', s')`: starting just after character `p`, the
expression `r` can consume a prefix of `s`, leaving `s'` with new
preceding-character context `p'`. -/
inductive MStep : RE → Option Char × List Char → Option Char × List Char → Prop where
  | eps : ∀ st, MStep .eps st st
  | tok : ∀ (f : Char → Bool) (c : Char) (p : Option Char) (r : List Char),
      f c = true → MStep (.tok f) (p, c :: r) (some c, r)
  | seq : ∀ a b st st1 st2, MStep a st st1 → MStep b st1 st2 → MStep (.seq a b) st st2
  | altL : ∀ a b st st', MStep a st st' → MStep (.alt a b) st st'
  | altR : ∀ a b st st', MStep b st st' → MStep (.alt a b) st st'
  | wb : ∀ p r, isBoundary p r = true → MStep .wb (p, r) (p, r)

/-- Does some match of `r` start exactly here? -/
def hasMAt (r : RE) (p : Option Char) (s : List Char) : Bool := (matchAt r p s).isSome

/-- Does some match of `r` start at this or a later position? -/
def scanM (r : RE) : Option Char → List Char → Bool
  | p, [] => hasMAt r p []
  | p, c :: t => hasMAt r p (c :: t) || scanM r (some c) t

/-- `subA` with its canonical fuel. -/
def sub1 (r : RE) (repl : List Char) (p : Option Char) (s : List Char) : List Char :=
  subA r repl (s.length + 1) p s

/-- All characters accepted by any `tok` of `r` satisfy `P`. -/
def tokPred (P : Char → Bool) : RE → Prop
  | .eps => True
  | .tok f => ∀ c, f c = true → P c = true
  | .seq a b => tokPred P a ∧ tokPred P b
  | .alt a b => tokPred P a ∧ tokPred P b
  | .wb => True

/-! ## Helper lemmas -/

theorem analyze_ok_of_not_blank (text : List Char) (anon : Bool) (src : String) (uc : Bool)
    (co : Option (List Char)) (h : _isBlank text = false) :
    analyze_text text anon src uc co = .ok (analyzeCore text anon src uc co) := by
  simp [analyze_text, h]

theorem analyze_ok_elim (text : List Char) (anon : Bool) (src : String) (uc : Bool)
    (co : Option (List Char)) (r : AnalysisResult)
    (h : analyze_text text anon src uc co = .ok r) :
    r = analyzeCore text anon src uc co := by
  by_cases hb : _isBlank text <;> simp [analyze_text, hb] at h
  exact h.symm

/-- C1 (counterexample): on the input of Scenario 2 the pipeline does not
return risk 28 / LOW / unflagged. -/
theorem C1_scenario2_counterexample :
    ¬ ((analyze_text (("new malware exploit targeting ransomware victims").data) true
        ("Text Input") false none).toOption.map
          (fun r => (r.risk_score, r.risk_level, r.flagged)) = some (28, "LOW", false)) := by
  decide

/-- C1 (amended): the Cybersecurity category hits, but entity extraction
also finds the threat terms target and victim in the input, giving an
entity boost of 20; hence risk 48, MEDIUM, flagged. -/
theorem C1_scenario2_amended :
    ((analyze_text (("new malware exploit targeting ransomware victims").data) true
      ("Text Input") false none).toOption.map
        (fun r => (r.risk_score, r.risk_level, r.flagged, r.categories))) =
      some (48, "MEDIUM", true, ["Cybersecurity"]) ∧
    ((analyze_text (("new malware exploit targeting ransomware victims").data) true
      ("Text Input") false none).toOption.map (fun r => r.entities)) =
      some [("threat_terms", ["target", "victim"])] :=
  ⟨by decide, by decide⟩

/-- C2: the exact level table and the flag threshold. -/
theorem C2_level_table_flag :
    (∀ s : ℚ,
      (0 ≤ s → s < 10 → _risk_level s = "SAFE") ∧
      (10 ≤ s → s < 30 → _risk_level s = "LOW") ∧
      (30 ≤ s → s < 55 → _risk_level s = "MEDIUM") ∧
      (55 ≤ s → s < 75 → _risk_level s = "HIGH") ∧
      (75 ≤ s → _risk_level s = "CRITICAL")) ∧
    (∀ (text : List Char) (anon : Bool) (src : String) (uc : Bool) (co : Option (List Char))
      (r : AnalysisResult), analyze_text text anon src uc co = .ok r →
      r.risk_level = _risk_level r.risk_score ∧ (r.flagged = true ↔ r.risk_score ≥ 30)) := by
  constructor
  · intro s
    unfold _risk_level
    refine ⟨fun h1 h2 => ?_, fun h1 h2 => ?_, fun h1 h2 => ?_, fun h1 h2 => ?_, fun h1 => ?_⟩ <;>
      split_ifs <;> first | rfl | linarith
  · intro text anon src uc co r h
    have hr := analyze_ok_elim text anon src uc co r h
    subst hr
    exact ⟨rfl, decide_eq_true_iff⟩

theorem C2_witness :
    _risk_level 28 = "LOW" ∧
    ((analyzeCore (("hi").data) true ("S") false none).risk_level =
      _risk_level (analyzeCore (("hi").data) true ("S") false none).risk_score) :=
  ⟨(C2_level_table_flag.1 28).2.1 (by decide) (by decide),
   (C2_level_table_flag.2 (("hi").data) true ("S") false none _
      (analyze_ok_of_not_blank _ _ _ _ _ (by decide))).1⟩

/-- C3: every returned risk score is in [0, 97]. -/
theorem C3_score_bounds (text : List Char) (anon : Bool) (src : String) (uc : Bool)
    (co : Option (List Char)) (r : AnalysisResult)
    (h : analyze_text text anon src uc co = .ok r) :
    0 ≤ r.risk_score ∧ r.risk_score ≤ 97 := by
  have hr := analyze_ok_elim text anon src uc co r h
  subst hr
  constructor
  · exact Nat.cast_nonneg _
  · show ((riskScoreOf _ _ : ℕ) : ℚ) ≤ 97
    exact_mod_cast Nat.min_le_left 97 _

theorem C3_witness :
    0 ≤ (analyzeCore (("hi").data) true ("S") false none).risk_score ∧
    (analyzeCore (("hi").data) true ("S") false none).risk_score ≤ 97 :=
  C3_score_bounds (("hi").data) true ("S") false none _
    (analyze_ok_of_not_blank _ _ _ _ _ (by decide))

/-- C4: blank input gives the explicit error result, everything else a
complete result; no third outcome. -/
theorem C4_empty_or_complete (text : List Char) (anon : Bool) (src : String) (uc : Bool)
    (co : Option (List Char)) :
    ((_isBlank text = true ∧ analyze_text text anon src uc co = .error emptyInputMsg) ∨
     (_isBlank text = false ∧ ∃ r, analyze_text text anon src uc co = .ok r)) ∧
    (_isBlank text = true ↔ ∀ c ∈ text, isSpaceChar c = true) := by
  constructor
  · by_cases hb : _isBlank text
    · exact .inl ⟨hb, by simp [analyze_text, hb]⟩
    · exact .inr ⟨by simpa using hb, ⟨analyzeCore text anon src uc co, by simp [analyze_text, hb]⟩⟩
  · simp [_isBlank, List.isEmpty_iff, List.dropWhile_eq_nil_iff]
    intro h
    simp [h]

/-- C6: the score is monotone in category hits and entity counts. -/
theorem C6_monotonicity :
    (∀ (c : String) (cs : List String),
      min 95 (sumWeights cs) ≤ min 95 (sumWeights (c :: cs))) ∧
    (∀ w t l w' t' l' : ℕ, w ≤ w' → t ≤ t' → l ≤ l' →
      entityBoost w t l ≤ entityBoost w' t' l') ∧
    (∀ p p' b b' : ℕ, p ≤ p' → b ≤ b' → riskScoreOf p b ≤ riskScoreOf p' b') := by
  refine ⟨fun c cs => ?_, fun w t l w' t' l' hw ht hl => ?_, fun p p' b b' hp hb => ?_⟩
  · have hs : sumWeights cs ≤ sumWeights (c :: cs) := by
      simp only [sumWeights, List.map_cons, List.sum_cons]
      exact Nat.le_add_left _ _
    exact min_le_min (le_refl 95) hs
  · unfold entityBoost
    omega
  · unfold riskScoreOf
    omega

theorem C6_witness :
    min 95 (sumWeights ["cybersecurity"]) ≤ min 95 (sumWeights ("violence" :: ["cybersecurity"])) ∧
    entityBoost 1 2 3 ≤ entityBoost 2 2 4 ∧
    riskScoreOf 28 0 ≤ riskScoreOf 35 20 :=
  ⟨C6_monotonicity.1 ("violence") ["cybersecurity"],
   C6_monotonicity.2.1 1 2 3 2 2 4 (by decide) (by decide) (by decide),
   C6_monotonicity.2.2 28 35 0 20 (by decide) (by decide)⟩

/-- C8: the preview is the first 200 characters of the original text. -/
theorem C8_content_preview (text : List Char) (anon : Bool) (src : String) (uc : Bool)
    (co : Option (List Char)) (r : AnalysisResult)
    (h : analyze_text text anon src uc co = .ok r) :
    r.content_preview = text.take 200 ++ (if 200 < text.length then ("...").data else []) := by
  have hr := analyze_ok_elim text anon src uc co r h
  subst hr
  rfl

theorem C8_witness :
    (analyzeCore (("hi").data) true ("S") false none).content_preview =
      (("hi").data).take 200 ++ (if 200 < (("hi").data).length then ("...").data else []) :=
  C8_content_preview (("hi").data) true ("S") false none _
    (analyze_ok_of_not_blank _ _ _ _ _ (by decide))

/-- C10: data_exfiltration is a seventh scored category with weight 28
and no explanation sentence or mitigation pair of its own. -/
theorem C10_seventh_category (t : List Char) (ms : List (List Char))
    (h : (_pattern_score t).2 = [(("data_exfiltration" : String), ms)]) :
    (_pattern_score t).1 = 28 ∧
    categoryLines (_pattern_score t).2 = [] ∧
    categorySteps (_pattern_score t).2 = [] ∧
    ∀ score : ℚ, _mitigation_steps (_pattern_score t).2 score =
      if (levelSteps (_risk_level score)).isEmpty then fallbackSteps
      else levelSteps (_risk_level score) := by
  have h1 : (_pattern_score t).1 = min 95 (sumWeights (((_pattern_score t).2).map (·.1))) := rfl
  refine ⟨?_, ?_, ?_, fun score => ?_⟩
  · rw [h1, h]
    simp [sumWeights, weightOf]
  · rw [h]
    simp [categoryLines, hasCat]
  · rw [h]
    simp [categorySteps, hasCat]
  · rw [h]
    simp [_mitigation_steps, categorySteps, hasCat]

theorem C10_witness :
    (_pattern_score (("exfiltrate the data").data)).1 = 28 ∧
    _mitigation_steps ((_pattern_score (("exfiltrate the data").data)).2) 28 =
      (if (levelSteps (_risk_level 28)).isEmpty then fallbackSteps
       else levelSteps (_risk_level 28)) :=
  ⟨(C10_seventh_category (("exfiltrate the data").data) [("exfiltrate the data").data]
      (by decide)).1,
   (C10_seventh_category (("exfiltrate the data").data) [("exfiltrate the data").data]
      (by decide)).2.2.2 28⟩

/-! ## Explanation head lemmas (for C7) -/

theorem headO_append (x r : List Char) (h : x ≠ []) : headO (x ++ r) = headO x := by
  cases x with
  | nil => exact absurd rfl h
  | cons c t => rfl

theorem joinSep_cons (sep x : List Char) (xs : List (List Char)) :
    ∃ r, joinSep sep (x :: xs) = x ++ r := by
  cases xs with
  | nil => exact ⟨[], (List.append_nil x).symm⟩
  | cons y ys => exact ⟨sep ++ joinSep sep (y :: ys), by simp [joinSep]⟩

theorem headO_joinSep_ne (sep : List Char) (ps : List (List Char))
    (h : ∀ x ∈ ps, x ≠ [] ∧ headO x ≠ some '*') :
    headO (joinSep sep ps) ≠ some '*' := by
  cases ps with
  | nil => simp [joinSep, headO]
  | cons x xs =>
    obtain ⟨r, hr⟩ := joinSep_cons sep x xs
    rw [hr, headO_append x r (h x (List.mem_cons_self x xs)).1]
    exact (h x (List.mem_cons_self x xs)).2

theorem forall_mem_ite_nil {P : List Char → Prop} (c : Prop) [Decidable c]
    (l : List (List Char)) (h : ∀ x ∈ l, P x) : ∀ x ∈ (if c then l else []), P x := by
  split
  · exact h
  · intro x hx
    exact absurd hx (List.not_mem_nil x)

theorem countLine_ok (cats : List String) :
    countLine cats ≠ [] ∧ headO (countLine cats) ≠ some '*' := by
  unfold countLine
  rw [List.append_assoc, List.append_assoc, List.append_assoc]
  constructor
  · intro hcontra
    exact absurd (congrArg List.length hcontra) (by simp)
  · rw [headO_append _ _ (by decide)]
    decide

theorem entityLines_ok (ents : List (String × List String)) :
    ∀ x ∈ entityLines ents, x ≠ [] ∧ headO x ≠ some '*' := by
  unfold entityLines
  refine List.forall_mem_append.mpr ⟨List.forall_mem_append.mpr ⟨?_, ?_⟩, ?_⟩ <;>
    apply forall_mem_ite_nil <;> intro x hx <;>
    rcases List.mem_singleton.mp hx with rfl <;>
    rw [List.append_assoc] <;>
    exact ⟨by simp, by rw [headO_append _ _ (by decide)]; decide⟩

theorem categoryLines_ok (hits : List (String × List (List Char))) :
    ∀ x ∈ categoryLines hits, x ≠ [] ∧ headO x ≠ some '*' := by
  unfold categoryLines
  refine List.forall_mem_append.mpr ⟨List.forall_mem_append.mpr
    ⟨List.forall_mem_append.mpr ⟨List.forall_mem_append.mpr
      ⟨List.forall_mem_append.mpr ⟨?_, ?_⟩, ?_⟩, ?_⟩, ?_⟩, ?_⟩ <;>
    apply forall_mem_ite_nil <;> decide

theorem buildExpl_headO (score : ℚ) (hits : List (String × List (List Char)))
    (ents : List (String × List String)) (sent : String) :
    headO (_build_explanation score hits ents sent) ≠ some '*' := by
  unfold _build_explanation
  apply headO_joinSep_ne
  rw [List.forall_mem_append]
  constructor
  · split
    · decide
    · refine List.forall_mem_append.mpr ⟨List.forall_mem_append.mpr ⟨?_, categoryLines_ok hits⟩,
        entityLines_ok ents⟩
      split
      · intro x hx
        exact absurd hx (List.not_mem_nil x)
      · intro x hx
        rcases List.mem_singleton.mp hx with rfl
        exact countLine_ok _
  · apply forall_mem_ite_nil
    decide

theorem analyzeCore_explanation_eq (text : List Char) (anon : Bool) (src : String)
    (co : Option (List Char)) :
    (analyzeCore text anon src true none).explanation =
      _build_explanation (analyzeCore text anon src true none).risk_score
        (analyzeCore text anon src true none).pattern_hits
        (analyzeCore text anon src true none).entities
        (analyzeCore text anon src true none).sentiment := rfl

theorem isPrefixL_head (c : Char) (p s : List Char) (h : isPrefixL (c :: p) s = true) :
    headO s = some c := by
  cases s with
  | nil => simp [isPrefixL] at h
  | cons d t =>
    simp [isPrefixL] at h
    simp [headO, h.1]

/-- C7: when augmentation is configured but the capability fails, the
explanation is exactly the deterministic one, with no AI Analysis prefix. -/
theorem C7_augmentation_failure (text : List Char) (anon : Bool) (src : String)
    (co : Option (List Char)) (r r' : AnalysisResult)
    (h : analyze_text text anon src true none = .ok r)
    (h' : analyze_text text anon src false co = .ok r') :
    r.explanation = r'.explanation ∧
    isPrefixL (("**AI Analysis:** ").data) r.explanation = false := by
  have hr := analyze_ok_elim text anon src true none r h
  have hr' := analyze_ok_elim text anon src false co r' h'
  subst hr hr'
  refine ⟨rfl, ?_⟩
  cases hp : isPrefixL (("**AI Analysis:** ").data)
      ((analyzeCore text anon src true none).explanation) with
  | false => rfl
  | true =>
    have h2 := isPrefixL_head '*' _ _ hp
    rw [analyzeCore_explanation_eq text anon src none] at h2
    exact absurd h2 (buildExpl_headO _ _ _ _)

theorem C7_witness :
    (analyzeCore (("hi").data) true ("S") true none).explanation =
      (analyzeCore (("hi").data) true ("S") false none).explanation ∧
    isPrefixL (("**AI Analysis:** ").data)
      (analyzeCore (("hi").data) true ("S") true none).explanation = false :=
  C7_augmentation_failure (("hi").data) true ("S") none _ _
    (analyze_ok_of_not_blank _ _ _ _ _ (by decide))
    (analyze_ok_of_not_blank _ _ _ _ _ (by decide))

/-! ## Aggregation characterization (for C9) -/

theorem pyMaxBy_decomp {α : Type} (key : α → ℚ) :
    ∀ (xs : List α) (b : α),
      ∃ l1 l2, b :: xs = l1 ++ pyMaxBy key b xs :: l2 ∧
        (∀ y ∈ l1, key y < key (pyMaxBy key b xs)) ∧
        (∀ y ∈ l2, key y ≤ key (pyMaxBy key b xs)) := by
  intro xs
  induction xs with
  | nil => exact fun b => ⟨[], [], rfl, by simp, by simp⟩
  | cons x xs ih =>
    intro b
    by_cases hxb : key x > key b
    · have hred : pyMaxBy key b (x :: xs) = pyMaxBy key x xs := by
        simp [pyMaxBy, hxb]
      obtain ⟨l1, l2, hdec, hlt, hle⟩ := ih x
      rw [hred]
      refine ⟨b :: l1, l2, by rw [List.cons_append, ← hdec], ?_, hle⟩
      intro y hy
      rcases List.mem_cons.mp hy with rfl | hy'
      · have hxm : key x ≤ key (pyMaxBy key x xs) := by
          cases l1 with
          | nil =>
            have : pyMaxBy key x xs = x := by
              have := hdec
              simp at this
              exact this.1.symm
            rw [this]
          | cons a l1' =>
            have ha : a = x := by
              have := hdec
              simp at this
              exact this.1.symm
            have hax := hlt a (List.mem_cons_self a l1')
            rw [ha] at hax
            exact le_of_lt hax
        exact lt_of_lt_of_le hxb hxm
      · exact hlt y hy'
    · have hred : pyMaxBy key b (x :: xs) = pyMaxBy key b xs := by
        simp [pyMaxBy, hxb]
      obtain ⟨l1, l2, hdec, hlt, hle⟩ := ih b
      rw [hred]
      cases l1 with
      | nil =>
        have hb : pyMaxBy key b xs = b ∧ xs = l2 := by
          have := hdec
          simp at this
          exact ⟨this.1.symm, this.2⟩
        refine ⟨[], x :: xs, ?_, by simp, ?_⟩
        · simp [hb.1]
        · intro y hy
          rcases List.mem_cons.mp hy with rfl | hy'
          · rw [hb.1]
            exact le_of_not_lt hxb
          · exact hle y (by rw [← hb.2]; exact hy')
      | cons a l1' =>
        have ha : a = b ∧ xs = l1' ++ pyMaxBy key b xs :: l2 := by
          have := hdec
          simp at this
          exact ⟨this.1.symm, this.2⟩
        refine ⟨b :: x :: l1', l2, ?_, ?_, hle⟩
        · rw [List.cons_append, List.cons_append, ← ha.2]
        · have hbm : key b < key (pyMaxBy key b xs) := by
            have := hlt a (List.mem_cons_self a l1')
            rwa [ha.1] at this
          intro y hy
          rcases List.mem_cons.mp hy with hy0 | hy'
          · rw [hy0]
            exact hbm
          · rcases List.mem_cons.mp hy' with hy1 | hy''
            · rw [hy1]
              exact lt_of_le_of_lt (le_of_not_lt hxb) hbm
            · exact hlt y (List.mem_cons_of_mem a hy'')

/-- C9: a 12000-character document yields exactly 5 analyzed chunks of at
most 2000 characters, and aggregation picks the earliest maximal result. -/
theorem C9_chunking_aggregation :
    (∀ content : List Char, content.length = 12000 →
      (analyzedChunks content).length = 5 ∧ ∀ c ∈ analyzedChunks content, c.length ≤ 2000) ∧
    (∀ (x : Except (List Char) AnalysisResult) (xs : List (Except (List Char) AnalysisResult)),
      ∃ m l1 l2, bestResult (x :: xs) = some m ∧ x :: xs = l1 ++ m :: l2 ∧
        (∀ y ∈ l1, resScore y < resScore m) ∧ (∀ y ∈ l2, resScore y ≤ resScore m)) := by
  constructor
  · intro content hlen
    constructor
    · unfold analyzedChunks docChunks
      rw [hlen]
      rw [show pyRange (min 12000 10000) 2000 = [0, 2000, 4000, 6000, 8000] from by decide]
      simp
    · intro c hc
      have hc' := List.mem_of_mem_take hc
      simp only [docChunks, List.mem_map] at hc'
      obtain ⟨i, _, rfl⟩ := hc'
      simp [List.length_take]
  · intro x xs
    obtain ⟨l1, l2, hdec, hlt, hle⟩ := pyMaxBy_decomp resScore xs x
    exact ⟨pyMaxBy resScore x xs, l1, l2, rfl, hdec, hlt, hle⟩

theorem C9_witness :
    (analyzedChunks (List.replicate 12000 'a')).length = 5 ∧
    (∃ m l1 l2,
      bestResult [Except.error ([] : List Char)] = some m ∧
      ([Except.error ([] : List Char)] :
        List (Except (List Char) AnalysisResult)) = l1 ++ m :: l2 ∧
      (∀ y ∈ l1, resScore y < resScore m) ∧ (∀ y ∈ l2, resScore y ≤ resScore m)) :=
  ⟨(C9_chunking_aggregation.1 (List.replicate 12000 'a') (List.length_replicate 12000 'a')).1,
   C9_chunking_aggregation.2 (Except.error []) []⟩

/-! ### Matcher soundness and completeness -/

theorem lastO_append (p : Option Char) (a b : List Char) :
    lastO p (a ++ b) = lastO (lastO p a) b := by
  cases hb : b.getLast? with
  | none =>
    have hbnil : b = [] := List.getLast?_eq_none_iff.mp hb
    subst hbnil
    simp [lastO]
  | some c =>
    have hb' : b ≠ [] := by
      intro h
      subst h
      simp at hb
    rw [lastO, List.getLast?_append_of_ne_nil _ hb', hb]
    rw [show lastO (lastO p a) b = some c from by rw [lastO, hb]]

theorem mtch_sound (r : RE) :
    ∀ (p : Option Char) (s : List Char) (k : Option Char → List Char → Option (List Char))
      (x : List Char), mtch r p s k = some x →
      ∃ p' s', MStep r (p, s) (p', s') ∧ k p' s' = some x := by
  induction r with
  | eps =>
    intro p s k x h
    exact ⟨p, s, .eps _, h⟩
  | tok f =>
    intro p s k x h
    cases s with
    | nil => simp [mtch] at h
    | cons c t =>
      simp only [mtch] at h
      by_cases hf : f c = true
      · rw [if_pos hf] at h
        exact ⟨some c, t, .tok f c p t hf, h⟩
      · rw [if_neg (by simpa using hf)] at h
        exact absurd h (by simp)
  | seq a b iha ihb =>
    intro p s k x h
    simp only [mtch] at h
    obtain ⟨p1, s1, hstep, hk⟩ := iha p s _ x h
    obtain ⟨p2, s2, hstep2, hk2⟩ := ihb p1 s1 k x hk
    exact ⟨p2, s2, .seq _ _ _ _ _ hstep hstep2, hk2⟩
  | alt a b iha ihb =>
    intro p s k x h
    simp only [mtch] at h
    cases hma : mtch a p s k with
    | some y =>
      rw [hma] at h
      simp [Option.orElse] at h
      obtain ⟨p', s', h1, h2⟩ := iha p s k x (by rw [hma, h])
      exact ⟨p', s', .altL _ _ _ _ h1, h2⟩
    | none =>
      rw [hma] at h
      simp [Option.orElse] at h
      obtain ⟨p', s', h1, h2⟩ := ihb p s k x h
      exact ⟨p', s', .altR _ _ _ _ h1, h2⟩
  | wb =>
    intro p s k x h
    simp only [mtch] at h
    by_cases hb : isBoundary p s = true
    · rw [if_pos hb] at h
      exact ⟨p, s, .wb _ _ hb, h⟩
    · rw [if_neg (by simpa using hb)] at h
      exact absurd h (by simp)

theorem mtch_complete {r : RE} {st st' : Option Char × List Char} (h : MStep r st st') :
    ∀ (k : Option Char → List Char → Option (List Char)),
      k st'.1 st'.2 ≠ none → mtch r st.1 st.2 k ≠ none := by
  induction h with
  | eps st =>
    intro k hk
    exact hk
  | tok f c p r hf =>
    intro k hk
    simpa [mtch, hf] using hk
  | seq a b st st1 st2 h1 h2 ih1 ih2 =>
    intro k hk
    simp only [mtch]
    exact ih1 _ (ih2 k hk)
  | altL a b st st' h ih =>
    intro k hk
    simp only [mtch]
    cases hma : mtch a st.1 st.2 k with
    | some y => simp [Option.orElse]
    | none => exact absurd hma (ih k hk)
  | altR a b st st' h ih =>
    intro k hk
    simp only [mtch]
    cases hma : mtch a st.1 st.2 k with
    | some y => simp [Option.orElse]
    | none => simpa [Option.orElse, hma] using ih k hk
  | wb p r hb =>
    intro k hk
    simpa [mtch, hb] using hk

theorem hasMAt_iff (r : RE) (p : Option Char) (s : List Char) :
    hasMAt r p s = true ↔ ∃ p' s', MStep r (p, s) (p', s') := by
  constructor
  · intro h
    obtain ⟨rest, hrest⟩ := Option.isSome_iff_exists.mp h
    obtain ⟨p', s', hstep, _⟩ := mtch_sound r p s _ rest hrest
    exact ⟨p', s', hstep⟩
  · rintro ⟨p', s', hstep⟩
    have := mtch_complete hstep (fun _ rest => some rest) (by simp)
    unfold hasMAt matchAt
    exact Option.isSome_iff_ne_none.mpr this

theorem MStep_consumed {r : RE} {st st' : Option Char × List Char} (h : MStep r st st') :
    ∃ u, st.2 = u ++ st'.2 ∧ st'.1 = lastO st.1 u ∧
      ∀ (P : Char → Bool), tokPred P r → u.all P = true := by
  induction h with
  | eps st => exact ⟨[], by simp, by simp [lastO], fun P _ => rfl⟩
  | tok f c p r hf =>
    refine ⟨[c], by simp, by simp [lastO], fun P hP => ?_⟩
    simp [List.all_cons]
    exact hP c hf
  | seq a b st st1 st2 h1 h2 ih1 ih2 =>
    obtain ⟨u1, e1, l1, a1⟩ := ih1
    obtain ⟨u2, e2, l2, a2⟩ := ih2
    refine ⟨u1 ++ u2, ?_, ?_, ?_⟩
    · rw [e1, e2, List.append_assoc]
    · rw [l2, l1, lastO_append]
    · intro P hP
      rw [List.all_append, a1 P hP.1, a2 P hP.2]
      rfl
  | altL a b st st' h ih =>
    obtain ⟨u, e, l, ha⟩ := ih
    exact ⟨u, e, l, fun P hP => ha P hP.1⟩
  | altR a b st st' h ih =>
    obtain ⟨u, e, l, ha⟩ := ih
    exact ⟨u, e, l, fun P hP => ha P hP.2⟩
  | wb p r hb => exact ⟨[], by simp, by simp [lastO], fun P _ => rfl⟩

/-! ### Context locality: a match only sees its consumed characters and
the word-ness of the first character after it -/

theorem lastO_cons (q : Option Char) (c : Char) (l : List Char) :
    lastO q (c :: l) = lastO (some c) l := by
  cases l with
  | nil => simp [lastO]
  | cons x xs =>
    rw [lastO, lastO, List.getLast?_cons_cons]
    cases hg : (x :: xs).getLast? with
    | none => exact absurd (List.getLast?_eq_none_iff.mp hg) (by simp)
    | some y => rfl

theorem MStep_transport {r : RE} {st st2 : Option Char × List Char} (h : MStep r st st2) :
    ∀ (u v v' : List Char) (q q2 : Option Char), st = (q, u ++ v) → st2 = (q2, v) →
      wordO (headO v) = wordO (headO v') →
      ∃ q2', MStep r (q, u ++ v') (q2', v') := by
  induction h with
  | eps st =>
    intro u v v' q q2 he1 he2 hw
    rw [he2] at he1
    obtain ⟨hq, hs⟩ := Prod.mk.injEq .. ▸ he1
    have hu : u = [] := by
      have := congrArg List.length hs
      simp at this
      exact this
    subst hu
    exact ⟨q, .eps _⟩
  | tok f c p rr hf =>
    intro u v v' q q2 he1 he2 hw
    obtain ⟨hq, hs⟩ := Prod.mk.injEq .. ▸ he1
    obtain ⟨hq2, hv⟩ := Prod.mk.injEq .. ▸ he2
    cases u with
    | nil =>
      exfalso
      rw [List.nil_append] at hs
      rw [← hv] at hs
      have := congrArg List.length hs
      simp at this
    | cons x u' =>
      rw [List.cons_append] at hs
      injection hs with hxc htail
      rw [← hv] at htail
      have hu' : u' = [] := by
        have := congrArg List.length htail
        simp at this
        exact this
      subst hu'
      refine ⟨some c, ?_⟩
      rw [← hxc, ← hq]
      exact .tok f c p v' hf
  | seq a b st st1 st2 h1 h2 ih1 ih2 =>
    intro u v v' q q2 he1 he2 hw
    obtain ⟨u2, e2, l2, -⟩ := MStep_consumed h2
    obtain ⟨u1, e1, l1, -⟩ := MStep_consumed h1
    rw [he2] at e2
    simp at e2
    rw [he1] at e1 l1
    simp at e1 l1
    have hu : u = u1 ++ u2 := by
      have : u1 ++ (u2 ++ v) = u ++ v := by rw [← e2, ← e1]
      rw [← List.append_assoc] at this
      exact (List.append_cancel_right this).symm
    have hst1 : st1 = (st1.1, u2 ++ v) := by
      rw [← e2]
    obtain ⟨q2', hb'⟩ := ih2 u2 v v' st1.1 q2 hst1 he2 hw
    have hw2 : wordO (headO (u2 ++ v)) = wordO (headO (u2 ++ v')) := by
      cases u2 with
      | nil => exact hw
      | cons x xs => rfl
    obtain ⟨qm', ha'⟩ := ih1 u1 (u2 ++ v) (u2 ++ v') q st1.1 (by rw [he1, hu, List.append_assoc]) hst1 hw2
    have hqm : qm' = st1.1 := by
      obtain ⟨w, ew, lw, -⟩ := MStep_consumed ha'
      simp at ew lw
      have hwu : w = u1 := by
        have : w ++ (u2 ++ v') = u1 ++ (u2 ++ v') := by rw [← ew]
        exact List.append_cancel_right this
      rw [lw, hwu, l1]
    refine ⟨q2', ?_⟩
    rw [hu, List.append_assoc]
    exact .seq a b _ _ _ ha' (hqm ▸ hb')
  | altL a b st st' h ih =>
    intro u v v' q q2 he1 he2 hw
    obtain ⟨q2', h'⟩ := ih u v v' q q2 he1 he2 hw
    exact ⟨q2', .altL _ _ _ _ h'⟩
  | altR a b st st' h ih =>
    intro u v v' q q2 he1 he2 hw
    obtain ⟨q2', h'⟩ := ih u v v' q q2 he1 he2 hw
    exact ⟨q2', .altR _ _ _ _ h'⟩
  | wb p rr hb =>
    intro u v v' q q2 he1 he2 hw
    obtain ⟨hq, hs⟩ := Prod.mk.injEq .. ▸ he1
    obtain ⟨hq2, hv⟩ := Prod.mk.injEq .. ▸ he2
    have hu : u = [] := by
      have h0 : u ++ v = v := by rw [← hs, hv]
      have := congrArg List.length h0
      simp at this
      exact this
    subst hu
    refine ⟨q, .wb q v' ?_⟩
    have hb' : isBoundary q v = true := by
      rw [← hv, ← hq]
      exact hb
    rw [isBoundary] at hb' ⊢
    rw [← hw]
    exact hb'

/-! ### Scanning and substitution structure -/

theorem scanM_append_false (r : RE) :
    ∀ (a : List Char) (q : Option Char) (b : List Char),
      scanM r q (a ++ b) = false ↔
        ((∀ a1 a2, a = a1 ++ a2 → a2 ≠ [] → hasMAt r (lastO q a1) (a2 ++ b) = false) ∧
         scanM r (lastO q a) b = false) := by
  intro a
  induction a with
  | nil =>
    intro q b
    simp only [List.nil_append]
    constructor
    · intro h
      refine ⟨?_, ?_⟩
      · intro a1 a2 he hne
        exact absurd (List.append_eq_nil.mp he.symm).2 hne
      · simpa [lastO] using h
    · intro h
      simpa [lastO] using h.2
  | cons c t ih =>
    intro q b
    rw [List.cons_append, show scanM r q (c :: (t ++ b)) =
      (hasMAt r q (c :: (t ++ b)) || scanM r (some c) (t ++ b)) from rfl]
    rw [Bool.or_eq_false_iff, ih (some c) b]
    constructor
    · rintro ⟨h0, hsplit, htail⟩
      refine ⟨?_, ?_⟩
      · intro a1 a2 he hne
        cases a1 with
        | nil =>
          have ha2 : a2 = c :: t := by simpa using he.symm
          subst ha2
          simpa [lastO] using h0
        | cons x a1' =>
          rw [List.cons_append] at he
          injection he with hxc ht
          have := hsplit a1' a2 ht hne
          rw [← hxc, lastO_cons]
          exact this
      · rw [lastO_cons]
        exact htail
    · rintro ⟨hsplit, htail⟩
      refine ⟨?_, ?_, ?_⟩
      · have := hsplit [] (c :: t) rfl (by simp)
        simpa [lastO] using this
      · intro a1 a2 he hne
        have := hsplit (c :: a1) a2 (by rw [he, List.cons_append]) hne
        rw [lastO_cons] at this
        exact this
      · rw [lastO_cons] at htail
        exact htail

theorem subA_fuel (r : RE) (T : List Char) :
    ∀ (f1 : Nat), ∀ (f2 : Nat) (q : Option Char) (s : List Char),
      s.length + 1 ≤ f1 → s.length + 1 ≤ f2 →
      subA r T f1 q s = subA r T f2 q s := by
  intro f1
  induction f1 with
  | zero =>
    intro f2 q s h1 h2
    omega
  | succ f1 ih =>
    intro f2 q s h1 h2
    cases f2 with
    | zero => omega
    | succ f2 =>
      cases hm : matchAt r q s with
      | some rest =>
        simp only [subA, hm]
        by_cases hlt : rest.length < s.length
        · rw [if_pos hlt, if_pos hlt]
          rw [ih f2 (lastO q (s.take (s.length - rest.length))) rest (by omega) (by omega)]
        · rw [if_neg hlt, if_neg hlt]
      | none =>
        cases s with
        | nil => simp [subA]
        | cons c t =>
          simp only [subA, hm]
          rw [ih f2 (some c) t (by simp at h1; omega) (by simp at h2; omega)]

theorem MStep_progress {r : RE} {q q' : Option Char} {s s' : List Char}
    (h : MStep r (q, s) (q', s'))
    (hne : ∀ (a b : Option Char) (x : List Char), ¬ MStep r (a, x) (b, x)) :
    s'.length < s.length := by
  obtain ⟨u, e, -, -⟩ := MStep_consumed h
  simp at e
  cases u with
  | nil =>
    exfalso
    simp at e
    subst e
    exact hne _ _ _ h
  | cons x xs =>
    rw [e]
    simp
    omega

/-- First-divergence decomposition of one substitution pass: either there
is no match anywhere and the pass is the identity, or the input splits as
`g ++ m ++ rest` where every position inside `g` has no match, `m` is the
leftmost match, and the pass replaces `m` and recurses on `rest`. -/
theorem sub_decomp (r : RE) (T : List Char)
    (hne : ∀ (a b : Option Char) (x : List Char), ¬ MStep r (a, x) (b, x)) :
    ∀ (fuel : Nat) (q : Option Char) (s : List Char), s.length + 1 ≤ fuel →
      (subA r T fuel q s = s ∧ scanM r q s = false) ∨
      (∃ g m rest, s = g ++ (m ++ rest) ∧ m ≠ [] ∧
        matchAt r (lastO q g) (m ++ rest) = some rest ∧
        (∀ g1 g2, g = g1 ++ g2 → g2 ≠ [] → hasMAt r (lastO q g1) (g2 ++ (m ++ rest)) = false) ∧
        subA r T fuel q s = g ++ (T ++ sub1 r T (lastO (lastO q g) m) rest)) := by
  intro fuel
  induction fuel with
  | zero =>
    intro q s h
    omega
  | succ fuel ih =>
    intro q s h
    cases hm : matchAt r q s with
    | some rest =>
      right
      obtain ⟨q', rest', hstep, hrest⟩ := mtch_sound r q s _ rest hm
      have hrr : rest' = rest := by
        simpa using hrest
      rw [hrr] at hstep
      obtain ⟨u, e, -, -⟩ := MStep_consumed hstep
      simp at e
      have hu : u ≠ [] := by
        intro h0
        subst h0
        simp at e
        subst e
        exact hne _ _ _ hstep
      have hlen : rest.length < s.length := MStep_progress hstep hne
      refine ⟨[], u, rest, by simpa using e, hu, ?_, ?_, ?_⟩
      · simpa [lastO, ← e] using hm
      · intro g1 g2 hg hne2
        exact absurd (List.append_eq_nil.mp hg.symm).2 hne2
      · simp only [subA, hm]
        rw [if_pos hlen]
        have htake : s.take (s.length - rest.length) = u := by
          rw [e, List.length_append, Nat.add_sub_cancel, List.take_left]
        rw [htake]
        have : subA r T fuel (lastO q u) rest = sub1 r T (lastO q u) rest := by
          apply subA_fuel
          · omega
          · omega
        rw [this]
        simp [lastO]
    | none =>
      cases s with
      | nil =>
        left
        constructor
        · simp [subA, hm]
        · simp [scanM, hasMAt, hm]
      | cons c t =>
        have ht : t.length + 1 ≤ fuel := by
          simp at h
          omega
        rcases ih (some c) t ht with ⟨hid, hclean⟩ | ⟨g, m, rest, he, hm', hmatch, hfail, hsub⟩
        · left
          constructor
          · simp only [subA, hm]
            rw [hid]
          · rw [show scanM r q (c :: t) = (hasMAt r q (c :: t) || scanM r (some c) t) from rfl]
            simp [hasMAt, hm, hclean]
        · right
          refine ⟨c :: g, m, rest, by rw [List.cons_append, ← he], hm', ?_, ?_, ?_⟩
          · rw [lastO_cons]
            exact hmatch
          · intro g1 g2 hg hne2
            cases g1 with
            | nil =>
              have hg2 : g2 = c :: g := by simpa using hg.symm
              subst hg2
              rw [List.cons_append, ← he]
              simpa [lastO, hasMAt] using congrArg Option.isSome hm
            | cons x g1' =>
              rw [List.cons_append] at hg
              injection hg with hxc hgt
              rw [← hxc, lastO_cons]
              exact hfail g1' g2 hgt hne2
          · simp only [subA, hm]
            rw [hsub, lastO_cons, List.cons_append]

/-! ### Inversion lemmas for the engine constructs -/

theorem MStep_eps_inv {st st' : Option Char × List Char} (h : MStep .eps st st') : st' = st := by
  cases h
  rfl

theorem MStep_wb_inv {st st' : Option Char × List Char} (h : MStep .wb st st') :
    st' = st ∧ isBoundary st.1 st.2 = true := by
  cases h with
  | wb p r hb => exact ⟨rfl, hb⟩

theorem MStep_tok_inv {f : Char → Bool} {st st' : Option Char × List Char}
    (h : MStep (.tok f) st st') :
    ∃ c r, st.2 = c :: r ∧ f c = true ∧ st' = (some c, r) := by
  cases h with
  | tok f c p r hf => exact ⟨c, r, rfl, hf, rfl⟩

theorem MStep_seq_inv {a b : RE} {st st2 : Option Char × List Char}
    (h : MStep (.seq a b) st st2) : ∃ st1, MStep a st st1 ∧ MStep b st1 st2 := by
  cases h with
  | seq _ _ _ st1 _ h1 h2 => exact ⟨st1, h1, h2⟩

theorem MStep_alt_inv {a b : RE} {st st' : Option Char × List Char}
    (h : MStep (.alt a b) st st') : MStep a st st' ∨ MStep b st st' := by
  cases h with
  | altL _ _ _ _ h => exact .inl h
  | altR _ _ _ _ h => exact .inr h

theorem lastO_ne_nil (a b : Option Char) {l : List Char} (h : l ≠ []) :
    lastO a l = lastO b l := by
  cases hg : l.getLast? with
  | none => exact absurd (List.getLast?_eq_none_iff.mp hg) h
  | some c => rw [lastO, lastO, hg]

theorem getLast?_mem_self {l : List Char} {c : Char} (h : l.getLast? = some c) : c ∈ l := by
  obtain ⟨hne, he⟩ := List.mem_getLast?_eq_getLast (show c ∈ l.getLast? by rw [h]; rfl)
  rw [he]
  exact List.getLast_mem hne

theorem optChain_tok_inv {f : Char → Bool} :
    ∀ (n : Nat) {q q' : Option Char} {s s' : List Char},
      MStep (optChain (.tok f) n) (q, s) (q', s') →
      ∃ u, s = u ++ s' ∧ u.all f = true ∧ q' = lastO q u := by
  intro n
  induction n with
  | zero =>
    intro q q' s s' h
    have he := MStep_eps_inv h
    obtain ⟨h1, h2⟩ := Prod.mk.injEq .. ▸ he
    exact ⟨[], by rw [h2]; rfl, rfl, by rw [h1]; rfl⟩
  | succ n ih =>
    intro q q' s s' h
    rcases MStep_alt_inv h with h1 | h2
    · obtain ⟨st1, hta, htb⟩ := MStep_seq_inv h1
      obtain ⟨c, r, he, hf, hst⟩ := MStep_tok_inv hta
      subst hst
      obtain ⟨u, e, ha, hl⟩ := ih htb
      refine ⟨c :: u, ?_, ?_, ?_⟩
      · rw [show s = c :: r from he, e]
        rfl
      · simp [List.all_cons, ha, hf]
      · rw [lastO_cons, hl]
    · have he := MStep_eps_inv h2
      obtain ⟨h1, h2⟩ := Prod.mk.injEq .. ▸ he
      exact ⟨[], by rw [h2]; rfl, rfl, by rw [h1]; rfl⟩

theorem nseq_tok_inv {f : Char → Bool} :
    ∀ (k : Nat) {q q' : Option Char} {s s' : List Char},
      MStep (nseq (.tok f) k) (q, s) (q', s') →
      ∃ u, s = u ++ s' ∧ u.all f = true ∧ q' = lastO q u ∧ u.length = k := by
  intro k
  induction k with
  | zero =>
    intro q q' s s' h
    have he := MStep_eps_inv h
    obtain ⟨h1, h2⟩ := Prod.mk.injEq .. ▸ he
    exact ⟨[], by rw [h2]; rfl, rfl, by rw [h1]; rfl, rfl⟩
  | succ k ih =>
    intro q q' s s' h
    obtain ⟨st1, hta, htb⟩ := MStep_seq_inv h
    obtain ⟨c, r, he, hf, hst⟩ := MStep_tok_inv hta
    subst hst
    obtain ⟨u, e, ha, hl, hlen⟩ := ih htb
    refine ⟨c :: u, ?_, ?_, ?_, ?_⟩
    · rw [show s = c :: r from he, e]
      rfl
    · simp [List.all_cons, ha, hf]
    · rw [lastO_cons, hl]
    · simp [hlen]

theorem plusB_inv {f : Char → Bool} {n : Nat} {q q' : Option Char} {s s' : List Char}
    (h : MStep (plusB f n) (q, s) (q', s')) :
    ∃ u, s = u ++ s' ∧ u ≠ [] ∧ u.all f = true ∧ q' = lastO q u := by
  obtain ⟨st1, hta, htb⟩ := MStep_seq_inv h
  obtain ⟨c, r, he, hf, hst⟩ := MStep_tok_inv hta
  subst hst
  obtain ⟨u, e, ha, hl⟩ := optChain_tok_inv n htb
  refine ⟨c :: u, ?_, by simp, ?_, ?_⟩
  · rw [show s = c :: r from he, e]
    rfl
  · simp [List.all_cons, ha, hf]
  · rw [lastO_cons, hl]

theorem repRange_tok_inv {f : Char → Bool} {lo hi : Nat} {q q' : Option Char} {s s' : List Char}
    (h : MStep (repRange (.tok f) lo hi) (q, s) (q', s')) :
    ∃ u, s = u ++ s' ∧ u.all f = true ∧ q' = lastO q u ∧ lo ≤ u.length := by
  obtain ⟨st1, hta, htb⟩ := MStep_seq_inv h
  obtain ⟨q1, s1⟩ := st1
  obtain ⟨u1, e1, ha1, hl1, hlen1⟩ := nseq_tok_inv lo hta
  obtain ⟨u2, e2, ha2, hl2⟩ := optChain_tok_inv (hi - lo) htb
  refine ⟨u1 ++ u2, ?_, ?_, ?_, ?_⟩
  · rw [e1, e2, List.append_assoc]
  · rw [List.all_append, ha1, ha2]
    rfl
  · rw [hl2, hl1, lastO_append]
  · simp [← hlen1]

/-- A word-class run is nonempty and ends in a word character; with the
trailing boundary this pins down the context after the run. -/
theorem lastO_all_word {q : Option Char} {u : List Char} {f : Char → Bool}
    (hne : u ≠ []) (ha : u.all f = true)
    (hw : ∀ c, f c = true → isWordChar c = true) :
    wordO (lastO q u) = true := by
  cases hg : u.getLast? with
  | none => exact absurd (List.getLast?_eq_none_iff.mp hg) hne
  | some c =>
    rw [lastO, hg]
    have hc : c ∈ u := getLast?_mem_self hg
    have := List.all_eq_true.mp ha c hc
    exact hw c this

/-! ### Per-pattern structural facts -/

theorem word_of_boundary {p : Option Char} {s : List Char}
    (hb : isBoundary p s = true) (hw : wordO p = true) : wordO (headO s) = false := by
  rw [isBoundary, hw] at hb
  cases hwh : wordO (headO s) with
  | false => rfl
  | true =>
    rw [hwh] at hb
    simp at hb

theorem nonword_of_boundary {p : Option Char} {s : List Char}
    (hb : isBoundary p s = true) (hw : wordO (headO s) = false) : wordO p = true := by
  rw [isBoundary, hw] at hb
  cases hwp : wordO p with
  | false =>
    rw [hwp] at hb
    simp at hb
  | true => rfl

theorem digit_word {c : Char} (h : isDigitChar c = true) : isWordChar c = true := by
  unfold isWordChar Char.isAlphanum
  unfold isDigitChar at h
  rw [h]
  simp

theorem emailLocalCls_not_lb {c : Char} (h : emailLocalCls c = true) : c ≠ '[' := by
  intro he
  subst he
  exact absurd h (by decide)

theorem emailDomCls_not_lb {c : Char} (h : emailDomCls c = true) : c ≠ '[' := by
  intro he
  subst he
  exact absurd h (by decide)

theorem isWordChar_not_lb {c : Char} (h : isWordChar c = true) : c ≠ '[' := by
  intro he
  subst he
  exact absurd h (by decide)

theorem isDigitChar_not_lb {c : Char} (h : isDigitChar c = true) : c ≠ '[' := by
  intro he
  subst he
  exact absurd h (by decide)

theorem phoneSepCls_not_lb {c : Char} (h : phoneSepCls c = true) : c ≠ '[' := by
  intro he
  subst he
  exact absurd h (by decide)

theorem email_pack {n : Nat} {q q' : Option Char} {s s' : List Char}
    (h : MStep (emailRE n) (q, s) (q', s')) :
    isBoundary q s = true ∧ wordO q' = true ∧ wordO (headO s') = false ∧
    (∃ u, s = u ++ s' ∧ u ≠ [] ∧ q' = lastO q u ∧ ∀ c ∈ u, c ≠ '[') ∧
    (∃ u1 z, s = u1 ++ '@' :: z ∧ u1 ≠ [] ∧ u1.all emailLocalCls = true) := by
  simp only [emailRE, seqs, List.foldr] at h
  obtain ⟨stA, hw1, h⟩ := MStep_seq_inv h
  obtain ⟨hA, hb1⟩ := MStep_wb_inv hw1
  subst hA
  obtain ⟨stB, hp1, h⟩ := MStep_seq_inv h
  obtain ⟨qB, sB⟩ := stB
  obtain ⟨u1, e1, hne1, ha1, hl1⟩ := plusB_inv hp1
  obtain ⟨stC, hat, h⟩ := MStep_seq_inv h
  obtain ⟨c2, r2, he2, hf2, hstC⟩ := MStep_tok_inv hat
  subst hstC
  have hc2 : c2 = '@' := of_decide_eq_true hf2
  subst hc2
  obtain ⟨stD, hp2, h⟩ := MStep_seq_inv h
  obtain ⟨qD, sD⟩ := stD
  obtain ⟨u2, e2, hne2, ha2, hl2⟩ := plusB_inv hp2
  obtain ⟨stE, hdot, h⟩ := MStep_seq_inv h
  obtain ⟨c3, r3, he3, hf3, hstE⟩ := MStep_tok_inv hdot
  subst hstE
  have hc3 : c3 = '.' := of_decide_eq_true hf3
  subst hc3
  obtain ⟨stF, hp3, h⟩ := MStep_seq_inv h
  obtain ⟨qF, sF⟩ := stF
  obtain ⟨u3, e3, hne3, ha3, hl3⟩ := plusB_inv hp3
  obtain ⟨stG, hw2, heps⟩ := MStep_seq_inv h
  obtain ⟨hG, hb2⟩ := MStep_wb_inv hw2
  have hend := MStep_eps_inv heps
  rw [hG] at hend
  obtain ⟨hq', hs'⟩ := Prod.mk.injEq .. ▸ hend
  have hsB : sB = '@' :: r2 := he2
  have hsD : sD = '.' :: r3 := he3
  have hqF : wordO qF = true := by
    rw [hl3]
    exact lastO_all_word hne3 ha3 (fun c hc => hc)
  have hq'w : wordO q' = true := by
    rw [hq']
    exact hqF
  refine ⟨hb1, hq'w, ?_, ?_, ?_⟩
  · rw [hs']
    exact word_of_boundary hb2 hqF
  · refine ⟨u1 ++ '@' :: (u2 ++ '.' :: u3), ?_, by simp, ?_, ?_⟩
    · rw [e1, hsB, e2, hsD, e3, hs']
      simp
    · rw [hq', hl3, lastO_append, lastO_cons, lastO_append, lastO_cons]
    · intro c hc
      rcases List.mem_append.mp hc with hm1 | hm2
      · exact emailLocalCls_not_lb (List.all_eq_true.mp ha1 c hm1)
      · rcases List.mem_cons.mp hm2 with rfl | hm3
        · decide
        · rcases List.mem_append.mp hm3 with hm4 | hm5
          · exact emailDomCls_not_lb (List.all_eq_true.mp ha2 c hm4)
          · rcases List.mem_cons.mp hm5 with rfl | hm6
            · decide
            · exact isWordChar_not_lb (List.all_eq_true.mp ha3 c hm6)
  · exact ⟨u1, r2, by rw [e1, hsB], hne1, ha1⟩

theorem ne_nil_of_one_le {l : List Char} (h : 1 ≤ l.length) : l ≠ [] := by
  intro hn
  subst hn
  simp at h

theorem phone_pack {q q' : Option Char} {s s' : List Char}
    (h : MStep phoneRE (q, s) (q', s')) :
    isBoundary q s = true ∧ wordO q' = true ∧ wordO (headO s') = false ∧
    (∃ u, s = u ++ s' ∧ u ≠ [] ∧ q' = lastO q u ∧ ∀ c ∈ u, c ≠ '[') ∧
    (∃ c z, s = c :: z ∧ (c = '+' ∨ isDigitChar c = true)) := by
  simp only [phoneRE, seqs, List.foldr] at h
  obtain ⟨stA, hw1, h⟩ := MStep_seq_inv h
  obtain ⟨hA, hb1⟩ := MStep_wb_inv hw1
  subst hA
  obtain ⟨stB, hopt, h⟩ := MStep_seq_inv h
  obtain ⟨qB, sB⟩ := stB
  obtain ⟨u0, e0, ha0, hl0⟩ := optChain_tok_inv 1 hopt
  obtain ⟨stC, htd1, h⟩ := MStep_seq_inv h
  obtain ⟨c1, r1, he1, hf1, hstC⟩ := MStep_tok_inv htd1
  subst hstC
  obtain ⟨stD, hrep, h⟩ := MStep_seq_inv h
  obtain ⟨qD, sD⟩ := stD
  obtain ⟨um, em, ham, hlm, hlenm⟩ := repRange_tok_inv hrep
  obtain ⟨stE, htd2, h⟩ := MStep_seq_inv h
  obtain ⟨c4, r4, he4, hf4, hstE⟩ := MStep_tok_inv htd2
  subst hstE
  obtain ⟨stG, hw2, heps⟩ := MStep_seq_inv h
  obtain ⟨hG, hb2⟩ := MStep_wb_inv hw2
  have hend := MStep_eps_inv heps
  rw [hG] at hend
  obtain ⟨hq', hs'⟩ := Prod.mk.injEq .. ▸ hend
  have hsB : sB = c1 :: r1 := he1
  have hsD : sD = c4 :: r4 := he4
  have hq'w : wordO q' = true := by
    rw [hq']
    exact digit_word hf4
  refine ⟨hb1, hq'w, ?_, ?_, ?_⟩
  · rw [hs']
    exact word_of_boundary hb2 (by exact digit_word hf4)
  · refine ⟨u0 ++ c1 :: (um ++ [c4]), ?_, by simp, ?_, ?_⟩
    · rw [e0, hsB, em, hsD, hs']
      simp
    · rw [hq', lastO_append, lastO_cons, lastO_append]
      simp [lastO]
    · intro c hc
      rcases List.mem_append.mp hc with hm1 | hm2
      · have := List.all_eq_true.mp ha0 c hm1
        have hcp : c = '+' := of_decide_eq_true this
        subst hcp
        decide
      · rcases List.mem_cons.mp hm2 with rfl | hm3
        · exact isDigitChar_not_lb hf1
        · rcases List.mem_append.mp hm3 with hm4 | hm5
          · exact phoneSepCls_not_lb (List.all_eq_true.mp ham c hm4)
          · rcases List.mem_singleton.mp hm5 with rfl
            exact isDigitChar_not_lb hf4
  · cases u0 with
    | nil =>
      refine ⟨c1, r1, ?_, .inr hf1⟩
      rw [e0, hsB]
      rfl
    | cons x u0' =>
      have hx : x = '+' := of_decide_eq_true (List.all_eq_true.mp ha0 x (List.mem_cons_self x u0'))
      subst hx
      exact ⟨'+', u0' ++ sB, by rw [e0]; rfl, .inl rfl⟩

theorem ip_pack {q q' : Option Char} {s s' : List Char}
    (h : MStep ipRE (q, s) (q', s')) :
    isBoundary q s = true ∧ wordO q' = true ∧ wordO (headO s') = false ∧
    (∃ u, s = u ++ s' ∧ u ≠ [] ∧ q' = lastO q u ∧ ∀ c ∈ u, c ≠ '[') ∧
    (∃ c z, s = c :: z ∧ isDigitChar c = true) := by
  simp only [ipRE, ipOctet, seqs, List.foldr] at h
  obtain ⟨stA, hw1, h⟩ := MStep_seq_inv h
  obtain ⟨hA, hb1⟩ := MStep_wb_inv hw1
  subst hA
  obtain ⟨stB, ho1, h⟩ := MStep_seq_inv h
  obtain ⟨qB, sB⟩ := stB
  obtain ⟨u1, e1, ha1, hl1, hlen1⟩ := repRange_tok_inv ho1
  obtain ⟨stC, hd1, h⟩ := MStep_seq_inv h
  obtain ⟨c2, r2, he2, hf2, hstC⟩ := MStep_tok_inv hd1
  subst hstC
  have hc2 : c2 = '.' := of_decide_eq_true hf2
  subst hc2
  obtain ⟨stD, ho2, h⟩ := MStep_seq_inv h
  obtain ⟨qD, sD⟩ := stD
  obtain ⟨u2, e2, ha2, hl2, hlen2⟩ := repRange_tok_inv ho2
  obtain ⟨stE, hd2, h⟩ := MStep_seq_inv h
  obtain ⟨c3, r3, he3, hf3, hstE⟩ := MStep_tok_inv hd2
  subst hstE
  have hc3 : c3 = '.' := of_decide_eq_true hf3
  subst hc3
  obtain ⟨stF, ho3, h⟩ := MStep_seq_inv h
  obtain ⟨qF, sF⟩ := stF
  obtain ⟨u3, e3, ha3, hl3, hlen3⟩ := repRange_tok_inv ho3
  obtain ⟨stG, hd3, h⟩ := MStep_seq_inv h
  obtain ⟨c4, r4, he4, hf4, hstG⟩ := MStep_tok_inv hd3
  subst hstG
  have hc4 : c4 = '.' := of_decide_eq_true hf4
  subst hc4
  obtain ⟨stH, ho4, h⟩ := MStep_seq_inv h
  obtain ⟨qH, sH⟩ := stH
  obtain ⟨u4, e4, ha4, hl4, hlen4⟩ := repRange_tok_inv ho4
  obtain ⟨stI, hw2, heps⟩ := MStep_seq_inv h
  obtain ⟨hI, hb2⟩ := MStep_wb_inv hw2
  have hend := MStep_eps_inv heps
  rw [hI] at hend
  obtain ⟨hq', hs'⟩ := Prod.mk.injEq .. ▸ hend
  have hu4ne : u4 ≠ [] := ne_nil_of_one_le hlen4
  have hqH : wordO qH = true := by
    rw [hl4]
    exact lastO_all_word hu4ne ha4 (fun c hc => digit_word hc)
  refine ⟨hb1, by rw [hq']; exact hqH, ?_, ?_, ?_⟩
  · rw [hs']
    exact word_of_boundary hb2 hqH
  · refine ⟨u1 ++ '.' :: (u2 ++ '.' :: (u3 ++ '.' :: u4)), ?_, by simp, ?_, ?_⟩
    · rw [e1, show sB = '.' :: r2 from he2, e2, show sD = '.' :: r3 from he3, e3,
        show sF = '.' :: r4 from he4, e4, hs']
      simp
    · rw [hq', hl4, lastO_append, lastO_cons, lastO_append, lastO_cons, lastO_append, lastO_cons]
    · intro c hc
      rcases List.mem_append.mp hc with hm1 | hm2
      · exact isDigitChar_not_lb (List.all_eq_true.mp ha1 c hm1)
      · rcases List.mem_cons.mp hm2 with rfl | hm3
        · decide
        · rcases List.mem_append.mp hm3 with hm4 | hm5
          · exact isDigitChar_not_lb (List.all_eq_true.mp ha2 c hm4)
          · rcases List.mem_cons.mp hm5 with rfl | hm6
            · decide
            · rcases List.mem_append.mp hm6 with hm7 | hm8
              · exact isDigitChar_not_lb (List.all_eq_true.mp ha3 c hm7)
              · rcases List.mem_cons.mp hm8 with rfl | hm9
                · decide
                · exact isDigitChar_not_lb (List.all_eq_true.mp ha4 c hm9)
  · have hu1ne : u1 ≠ [] := ne_nil_of_one_le hlen1
    cases u1 with
    | nil => exact absurd rfl hu1ne
    | cons x xs =>
      refine ⟨x, xs ++ sB, ?_, ?_⟩
      · rw [e1]
        rfl
      · exact List.all_eq_true.mp ha1 x (List.mem_cons_self x xs)

theorem word_of_boundary_right {p : Option Char} {s : List Char}
    (hb : isBoundary p s = true) (hw : wordO (headO s) = true) : wordO p = false := by
  rw [isBoundary, hw] at hb
  cases hwp : wordO p with
  | false => rfl
  | true =>
    rw [hwp] at hb
    simp at hb

theorem headO_append2 (x r : List Char) (h : x ≠ []) : headO (x ++ r) = headO x := by
  cases x with
  | nil => exact absurd rfl h
  | cons c t => rfl

theorem phone_token_fail {q : Option Char} {s : List Char}
    (h : ∀ c z, s = c :: z → ¬(c = '+' ∨ isDigitChar c = true)) :
    hasMAt phoneRE q s = false := by
  cases hh : hasMAt phoneRE q s with
  | false => rfl
  | true =>
    obtain ⟨q', s', hstep⟩ := (hasMAt_iff _ _ _).mp hh
    obtain ⟨-, -, -, -, c, z, hcz, hc⟩ := phone_pack hstep
    exact absurd hc (h c z hcz)

theorem ip_token_fail {q : Option Char} {s : List Char}
    (h : ∀ c z, s = c :: z → isDigitChar c = false) :
    hasMAt ipRE q s = false := by
  cases hh : hasMAt ipRE q s with
  | false => rfl
  | true =>
    obtain ⟨q', s', hstep⟩ := (hasMAt_iff _ _ _).mp hh
    obtain ⟨-, -, -, -, c, z, hcz, hc⟩ := ip_pack hstep
    rw [h c z hcz] at hc
    exact (Bool.false_ne_true hc).elim

theorem email_token_fail {n : Nat} {q : Option Char} (T2 cont : List Char)
    (h1 : '@' ∉ T2) (h2 : ∃ c ∈ T2, emailLocalCls c = false) :
    hasMAt (emailRE n) q (T2 ++ cont) = false := by
  cases hh : hasMAt (emailRE n) q (T2 ++ cont) with
  | false => rfl
  | true =>
    exfalso
    obtain ⟨q', s', hstep⟩ := (hasMAt_iff _ _ _).mp hh
    obtain ⟨-, -, -, -, u1, z, he, hne, ha⟩ := email_pack hstep
    obtain ⟨c0, hc0mem, hc0⟩ := h2
    rcases List.append_eq_append_iff.mp he with ⟨w, hw1, hw2⟩ | ⟨w, hw1, hw2⟩
    · -- u1 = T2 ++ w : every character of T2 is in the local-class run
      have : c0 ∈ u1 := by
        rw [hw1]
        exact List.mem_append_left w hc0mem
      rw [List.all_eq_true.mp ha c0 this] at hc0
      exact Bool.false_ne_true hc0.symm
    · -- T2 = u1 ++ w, '@' :: z = w ++ cont
      cases w with
      | nil =>
        have hT2 : T2 = u1 := by simpa using hw1
        have : c0 ∈ u1 := hT2 ▸ hc0mem
        rw [List.all_eq_true.mp ha c0 this] at hc0
        exact Bool.false_ne_true hc0.symm
      | cons y w' =>
        have hy : y = '@' := by
          have := hw2
          rw [List.cons_append] at this
          injection this with hy0
          exact hy0.symm
        apply h1
        rw [hw1, hy]
        exact List.mem_append_right u1 (List.mem_cons_self _ _)

/-- The driver: one substitution pass with pattern `Y` leaves no match of
pattern `X` anywhere in its output, provided the input had none before
the pass started (or `X` is `Y` itself), the output-side context is
compatible with the input-side context, and `X` cannot match inside the
replacement token. -/
theorem scanM_transfer (X Y : RE) :
    ∀ (s : List Char) (p : Option Char),
      (∀ (q : Option Char) (x : List Char), x.length ≤ s.length →
        hasMAt X q x = true → hasMAt Y q x = true) →
      scanM Y p s = false → scanM X p s = false := by
  intro s
  induction s with
  | nil =>
    intro p htr h
    show hasMAt X p [] = false
    cases hx : hasMAt X p [] with
    | false => rfl
    | true =>
      have := htr p [] (by simp) hx
      rw [show scanM Y p [] = hasMAt Y p [] from rfl] at h
      rw [h] at this
      exact (Bool.false_ne_true this).elim
  | cons c t ih =>
    intro p htr h
    have hsplit := Bool.or_eq_false_iff.mp
      (show (hasMAt Y p (c :: t) || scanM Y (some c) t) = false from h)
    show (hasMAt X p (c :: t) || scanM X (some c) t) = false
    rw [Bool.or_eq_false_iff]
    constructor
    · cases hx : hasMAt X p (c :: t) with
      | false => rfl
      | true =>
        have := htr p (c :: t) (le_refl _) hx
        rw [hsplit.1] at this
        exact (Bool.false_ne_true this).elim
    · exact ih (some c) (fun q x hx => htr q x (by simp; omega)) hsplit.2

theorem sub_clean (X Y : RE) (T : List Char)
    (hXpack : ∀ {q q' : Option Char} {s s' : List Char}, MStep X (q, s) (q', s') →
      isBoundary q s = true ∧ wordO q' = true ∧ wordO (headO s') = false ∧
      (∃ u, s = u ++ s' ∧ u ≠ [] ∧ q' = lastO q u ∧ ∀ c ∈ u, c ≠ '['))
    (hYpack : ∀ {q q' : Option Char} {s s' : List Char}, MStep Y (q, s) (q', s') →
      isBoundary q s = true ∧ wordO q' = true ∧ wordO (headO s') = false ∧
      (∃ u, s = u ++ s' ∧ u ≠ [] ∧ q' = lastO q u ∧ ∀ c ∈ u, c ≠ '['))
    (htok : ∀ (q : Option Char) (T1 T2 cont : List Char), T = T1 ++ T2 → T2 ≠ [] →
      hasMAt X q (T2 ++ cont) = false)
    (hThead : headO T = some '[')
    (hTlast : wordO (lastO none T) = false) (B : Nat) :
    ∀ (N : Nat) (s : List Char), s.length ≤ N → s.length ≤ B → ∀ (pin pout : Option Char),
      (pout = pin ∨ (wordO pout = false ∧ wordO (headO s) = false)) →
      ((∀ (q : Option Char) (x : List Char), x.length ≤ B →
          hasMAt X q x = true → hasMAt Y q x = true) ∨ scanM X pin s = false) →
      scanM X pout (sub1 Y T pin s) = false := by
  have hTne : T ≠ [] := by
    intro h0
    subst h0
    simp [headO] at hThead
  have hYne : ∀ (a b : Option Char) (x : List Char), ¬ MStep Y (a, x) (b, x) := by
    intro a b x hstep
    obtain ⟨-, -, -, u, e, hune, -, -⟩ := hYpack hstep
    have := congrArg List.length e
    simp at this
    exact hune this
  have hXnil : ∀ (q : Option Char), hasMAt X q [] = false := by
    intro q
    cases hh : hasMAt X q [] with
    | false => rfl
    | true =>
      obtain ⟨q', s', hstep⟩ := (hasMAt_iff _ _ _).mp hh
      obtain ⟨-, -, -, u, e, hune, -, -⟩ := hXpack hstep
      exact absurd (List.append_eq_nil.mp e.symm).1 hune
  have hXdiv : ∀ (q : Option Char) (s : List Char), wordO q = false → wordO (headO s) = false →
      hasMAt X q s = false := by
    intro q s hq hs
    cases hh : hasMAt X q s with
    | false => rfl
    | true =>
      obtain ⟨q', s', hstep⟩ := (hasMAt_iff _ _ _).mp hh
      obtain ⟨hb, -, -, -⟩ := hXpack hstep
      rw [isBoundary, hq, hs] at hb
      simp at hb
  intro N
  induction N with
  | zero =>
    intro s hs hsB pin pout hOK hin
    have hnil : s = [] := List.eq_nil_of_length_eq_zero (Nat.le_zero.mp hs)
    subst hnil
    have h0 : sub1 Y T pin [] = [] := by
      unfold sub1
      cases hm : matchAt Y pin [] with
      | some rest => simp [subA, hm]
      | none => simp [subA, hm]
    rw [h0]
    exact hXnil pout
  | succ N ih =>
    intro s hs hsB pin pout hOK hin
    rcases sub_decomp Y T hYne (s.length + 1) pin s (le_refl _) with
      ⟨hid, hclean⟩ | ⟨g, m, rest, he, hmne, hmatch, hfail, hsub⟩
    · rw [show sub1 Y T pin s = s from hid]
      have hinX : scanM X pin s = false := by
        rcases hin with htr | h
        · exact scanM_transfer X Y s pin (fun q x hx => htr q x (le_trans hx hsB)) hclean
        · exact h
      cases s with
      | nil => exact hXnil pout
      | cons c t =>
        have hsplit := Bool.or_eq_false_iff.mp
          (show (hasMAt X pin (c :: t) || scanM X (some c) t) = false from hinX)
        show (hasMAt X pout (c :: t) || scanM X (some c) t) = false
        rw [Bool.or_eq_false_iff]
        refine ⟨?_, hsplit.2⟩
        rcases hOK with rfl | ⟨hpo, hho⟩
        · exact hsplit.1
        · exact hXdiv pout (c :: t) hpo hho
    · rw [show sub1 Y T pin s = g ++ (T ++ sub1 Y T (lastO (lastO pin g) m) rest) from hsub]
      obtain ⟨qm, hmstep⟩ : ∃ q', MStep Y (lastO pin g, m ++ rest) (q', rest) := by
        obtain ⟨q', rest', hstep, hr⟩ := mtch_sound Y (lastO pin g) (m ++ rest) _ rest hmatch
        have hrr : rest' = rest := by simpa using hr
        exact ⟨q', hrr ▸ hstep⟩
      obtain ⟨hYb, hYw, hYh, uY, eY, -, hYl, -⟩ := hYpack hmstep
      have huY : uY = m := by
        have h1 : uY ++ rest = m ++ rest := by rw [← eY]
        exact List.append_cancel_right h1
      have hpm : lastO (lastO pin g) m = qm := by
        rw [hYl, huY]
      have hrlen : rest.length ≤ N := by
        have h2 := congrArg List.length he
        simp at h2
        have hmlen : 1 ≤ m.length := by
          cases m with
          | nil => exact absurd rfl hmne
          | cons _ _ => simp
        omega
      have hrB : rest.length ≤ B := by
        have h2 := congrArg List.length he
        simp at h2
        omega
      rw [scanM_append_false]
      constructor
      · intro g1 g2 hg hg2ne
        cases hh : hasMAt X (lastO pout g1) (g2 ++ (T ++ sub1 Y T (lastO (lastO pin g) m) rest))
        · rfl
        exfalso
        obtain ⟨qx, sx, hXstep⟩ := (hasMAt_iff _ _ _).mp hh
        have hinFail : hasMAt X (lastO pin g1) (g2 ++ (m ++ rest)) = false := by
          rcases hin with htr | hinc
          · cases hx2 : hasMAt X (lastO pin g1) (g2 ++ (m ++ rest)) with
            | false => rfl
            | true =>
              exfalso
              have h2 := congrArg List.length he
              have h2g := congrArg List.length hg
              simp at h2 h2g
              have hlen2 : (g2 ++ (m ++ rest)).length ≤ B := by
                simp
                omega
              have h4 := htr _ _ hlen2 hx2
              rw [hfail g1 g2 hg hg2ne] at h4
              exact Bool.false_ne_true h4
          · have h3 := (scanM_append_false _ g pin (m ++ rest)).mp (by rw [← he]; exact hinc)
            exact h3.1 g1 g2 hg hg2ne
        obtain ⟨hXb, hXw, -, uX, eX, hXune, hXl, hXnolb⟩ := hXpack hXstep
        have hmain : lastO pout g1 = lastO pin g1 → False := by
          intro hctx
          have hflush : uX = g2 → sx = T ++ sub1 Y T (lastO (lastO pin g) m) rest → False := by
            intro hug hsx
            cases hmw : wordO (headO (m ++ rest)) with
            | false =>
              have hword : wordO (headO sx) = wordO (headO (m ++ rest)) := by
                rw [hsx, headO_append2 T _ hTne, hThead, hmw]
                rfl
              obtain ⟨qx', hstep'⟩ := MStep_transport hXstep uX sx (m ++ rest)
                (lastO pout g1) qx (by rw [← eX]) rfl hword
              rw [hug, hctx] at hstep'
              have h4 : hasMAt X (lastO pin g1) (g2 ++ (m ++ rest)) = true :=
                (hasMAt_iff _ _ _).mpr ⟨qx', m ++ rest, hstep'⟩
              rw [hinFail] at h4
              exact Bool.false_ne_true h4
            | true =>
              have h5 : wordO (lastO pin g) = false := word_of_boundary_right hYb hmw
              have h6 : lastO pin g = qx := by
                rw [hg, lastO_append, ← hctx, ← hug]
                exact hXl.symm
              rw [h6, hXw] at h5
              exact Bool.false_ne_true h5.symm
          rcases List.append_eq_append_iff.mp eX with ⟨w, hw1, hw2⟩ | ⟨w, hw1, hw2⟩
          · -- uX = g2 ++ w, T ++ rec = w ++ sx
            cases w with
            | nil =>
              exact hflush (by simpa using hw1) (by simpa using hw2.symm)
            | cons y w' =>
              have hy : y = '[' := by
                have h7 : headO (T ++ sub1 Y T (lastO (lastO pin g) m) rest) = some y := by
                  rw [hw2]
                  rfl
                rw [headO_append2 T _ hTne, hThead] at h7
                injection h7 with h8
                exact h8.symm
              refine hXnolb y ?_ hy
              rw [hw1]
              exact List.mem_append_right g2 (List.mem_cons_self _ _)
          · -- g2 = uX ++ w, sx = w ++ (T ++ rec)
            cases w with
            | nil =>
              exact hflush (by simpa using hw1.symm) (by simpa using hw2)
            | cons y w' =>
              have hword : wordO (headO sx) = wordO (headO ((y :: w') ++ (m ++ rest))) := by
                rw [hw2]
                rfl
              obtain ⟨qx', hstep'⟩ := MStep_transport hXstep uX sx ((y :: w') ++ (m ++ rest))
                (lastO pout g1) qx (by rw [← eX]) rfl hword
              rw [hctx] at hstep'
              have h4 : hasMAt X (lastO pin g1) (g2 ++ (m ++ rest)) = true := by
                apply (hasMAt_iff _ _ _).mpr
                refine ⟨qx', (y :: w') ++ (m ++ rest), ?_⟩
                rw [hw1, List.append_assoc]
                exact hstep'
              rw [hinFail] at h4
              exact Bool.false_ne_true h4
        by_cases hg1 : g1 = []
        · rcases hOK with rfl | ⟨hpo, hho⟩
          · exact hmain rfl
          · subst hg1
            have hg2g : g2 = g := by simpa using hg.symm
            have hh5 : wordO (headO (g2 ++ (T ++ sub1 Y T (lastO (lastO pin g) m) rest))) = false := by
              rw [headO_append2 _ _ hg2ne]
              have h9 : headO s = headO g2 := by
                rw [he, ← hg2g, headO_append2 _ _ hg2ne]
              rw [← h9]
              exact hho
            rw [isBoundary, show lastO pout [] = pout from rfl, hpo, hh5] at hXb
            simp at hXb
        · exact hmain (lastO_ne_nil pout pin hg1)
      · rw [scanM_append_false]
        constructor
        · intro T1 T2 hT hT2ne
          exact htok (lastO (lastO pout g) T1) T1 T2 _ hT hT2ne
        · rw [lastO_ne_nil (lastO pout g) none hTne, hpm]
          apply ih rest hrlen hrB qm (lastO none T)
          · exact .inr ⟨hTlast, hYh⟩
          · rcases hin with htr | hinc
            · exact .inl htr
            · right
              have h6 := (scanM_append_false _ (g ++ m) pin rest).mp
                (by rw [List.append_assoc, ← he]; exact hinc)
              have h7 : lastO pin (g ++ m) = qm := by
                rw [lastO_append]
                exact hpm
              rw [h7] at h6
              exact h6.2

/-! ### The email pattern at different chain bounds -/

theorem email_elim {n : Nat} {q q' : Option Char} {s s' : List Char}
    (h : MStep (emailRE n) (q, s) (q', s')) :
    ∃ u1 u2 u3, s = u1 ++ '@' :: (u2 ++ '.' :: (u3 ++ s')) ∧
      u1 ≠ [] ∧ u2 ≠ [] ∧ u3 ≠ [] ∧
      u1.all emailLocalCls = true ∧ u2.all emailDomCls = true ∧ u3.all isWordChar = true ∧
      isBoundary q s = true ∧ q' = lastO (some '.') u3 ∧ isBoundary q' s' = true := by
  simp only [emailRE, seqs, List.foldr] at h
  obtain ⟨stA, hw1, h⟩ := MStep_seq_inv h
  obtain ⟨hA, hb1⟩ := MStep_wb_inv hw1
  subst hA
  obtain ⟨stB, hp1, h⟩ := MStep_seq_inv h
  obtain ⟨qB, sB⟩ := stB
  obtain ⟨u1, e1, hne1, ha1, hl1⟩ := plusB_inv hp1
  obtain ⟨stC, hat, h⟩ := MStep_seq_inv h
  obtain ⟨c2, r2, he2, hf2, hstC⟩ := MStep_tok_inv hat
  subst hstC
  have hc2 : c2 = '@' := of_decide_eq_true hf2
  subst hc2
  obtain ⟨stD, hp2, h⟩ := MStep_seq_inv h
  obtain ⟨qD, sD⟩ := stD
  obtain ⟨u2, e2, hne2, ha2, hl2⟩ := plusB_inv hp2
  obtain ⟨stE, hdot, h⟩ := MStep_seq_inv h
  obtain ⟨c3, r3, he3, hf3, hstE⟩ := MStep_tok_inv hdot
  subst hstE
  have hc3 : c3 = '.' := of_decide_eq_true hf3
  subst hc3
  obtain ⟨stF, hp3, h⟩ := MStep_seq_inv h
  obtain ⟨qF, sF⟩ := stF
  obtain ⟨u3, e3, hne3, ha3, hl3⟩ := plusB_inv hp3
  obtain ⟨stG, hw2, heps⟩ := MStep_seq_inv h
  obtain ⟨hG, hb2⟩ := MStep_wb_inv hw2
  have hend := MStep_eps_inv heps
  rw [hG] at hend
  obtain ⟨hq', hs'⟩ := Prod.mk.injEq .. ▸ hend
  refine ⟨u1, u2, u3, ?_, hne1, hne2, hne3, ha1, ha2, ha3, hb1, ?_, ?_⟩
  · rw [e1, show sB = '@' :: r2 from he2, e2, show sD = '.' :: r3 from he3, e3, hs']
  · rw [hq', hl3]
  · rw [hq', hs']
    exact hb2

theorem optChain_tok_intro {f : Char → Bool} :
    ∀ (u : List Char) (n : Nat) (q : Option Char) (v : List Char),
      u.all f = true → u.length ≤ n →
      MStep (optChain (.tok f) n) (q, u ++ v) (lastO q u, v) := by
  intro u
  induction u with
  | nil =>
    intro n q v _ _
    cases n with
    | zero => exact .eps _
    | succ n => exact .altR _ _ _ _ (.eps _)
  | cons c u' ih =>
    intro n q v hall hlen
    cases n with
    | zero => simp at hlen
    | succ n =>
      apply MStep.altL
      refine MStep.seq _ _ _ (some c, u' ++ v) _ ?_ ?_
      · exact MStep.tok f c q (u' ++ v)
          (by rw [List.all_cons, Bool.and_eq_true] at hall; exact hall.1)
      · rw [show lastO q (c :: u') = lastO (some c) u' from lastO_cons q c u']
        exact ih n (some c) v
          (by rw [List.all_cons, Bool.and_eq_true] at hall; exact hall.2) (by simpa using hlen)

theorem plusB_intro {f : Char → Bool} {n : Nat} {q : Option Char} {u v : List Char}
    (hne : u ≠ []) (hall : u.all f = true) (hlen : u.length ≤ n + 1) :
    MStep (plusB f n) (q, u ++ v) (lastO q u, v) := by
  cases u with
  | nil => exact absurd rfl hne
  | cons c u' =>
    refine MStep.seq _ _ _ (some c, u' ++ v) _ ?_ ?_
    · exact MStep.tok f c q (u' ++ v)
        (by rw [List.all_cons, Bool.and_eq_true] at hall; exact hall.1)
    · rw [show lastO q (c :: u') = lastO (some c) u' from lastO_cons q c u']
      exact optChain_tok_intro u' n (some c) v
        (by rw [List.all_cons, Bool.and_eq_true] at hall; exact hall.2) (by simpa using hlen)

theorem email_intro {n : Nat} {q : Option Char} {u1 u2 u3 s' : List Char}
    (h1 : u1 ≠ []) (h2 : u2 ≠ []) (h3 : u3 ≠ [])
    (ha1 : u1.all emailLocalCls = true) (ha2 : u2.all emailDomCls = true)
    (ha3 : u3.all isWordChar = true)
    (hl1 : u1.length ≤ n + 1) (hl2 : u2.length ≤ n + 1) (hl3 : u3.length ≤ n + 1)
    (hb : isBoundary q (u1 ++ '@' :: (u2 ++ '.' :: (u3 ++ s'))) = true)
    (hb2 : isBoundary (lastO (some '.') u3) s' = true) :
    MStep (emailRE n) (q, u1 ++ '@' :: (u2 ++ '.' :: (u3 ++ s')))
      (lastO (some '.') u3, s') := by
  simp only [emailRE, seqs, List.foldr]
  refine MStep.seq _ _ _ (q, u1 ++ '@' :: (u2 ++ '.' :: (u3 ++ s'))) _ (.wb _ _ hb) ?_
  refine MStep.seq _ _ _ (lastO q u1, '@' :: (u2 ++ '.' :: (u3 ++ s'))) _
    (plusB_intro h1 ha1 hl1) ?_
  refine MStep.seq _ _ _ (some '@', u2 ++ '.' :: (u3 ++ s')) _
    (MStep.tok _ '@' _ _ (by decide)) ?_
  refine MStep.seq _ _ _ (lastO (some '@') u2, '.' :: (u3 ++ s')) _
    (plusB_intro h2 ha2 hl2) ?_
  refine MStep.seq _ _ _ (some '.', u3 ++ s') _ (MStep.tok _ '.' _ _ (by decide)) ?_
  refine MStep.seq _ _ _ (lastO (some '.') u3, s') _ (plusB_intro h3 ha3 hl3) ?_
  exact MStep.seq _ _ _ (lastO (some '.') u3, s') _ (.wb _ _ hb2) (.eps _)

theorem email_n_conv {n n' : Nat} {q q' : Option Char} {s s' : List Char}
    (h : MStep (emailRE n') (q, s) (q', s')) (hlen : s.length ≤ n) :
    MStep (emailRE n) (q, s) (q', s') := by
  obtain ⟨u1, u2, u3, he, h1, h2, h3, ha1, ha2, ha3, hb, hq', hb2⟩ := email_elim h
  have hlens : u1.length ≤ n ∧ u2.length ≤ n ∧ u3.length ≤ n := by
    have := congrArg List.length he
    simp at this
    omega
  subst he
  rw [hq']
  rw [hq'] at hb2
  exact email_intro h1 h2 h3 ha1 ha2 ha3 (by omega) (by omega) (by omega) hb hb2

theorem hasMAt_email_conv {n n' : Nat} {q : Option Char} {s : List Char}
    (hlen : s.length ≤ n) (h : hasMAt (emailRE n') q s = true) :
    hasMAt (emailRE n) q s = true := by
  obtain ⟨q', s', hstep⟩ := (hasMAt_iff _ _ _).mp h
  exact (hasMAt_iff _ _ _).mpr ⟨q', s', email_n_conv hstep hlen⟩

/-! ### Assembly: idempotence of the anonymizer -/

theorem sub_id_of_clean (r : RE) (T : List Char)
    (hne : ∀ (a b : Option Char) (x : List Char), ¬ MStep r (a, x) (b, x))
    (q : Option Char) (s : List Char) (h : scanM r q s = false) :
    sub1 r T q s = s := by
  rcases sub_decomp r T hne (s.length + 1) q s (le_refl _) with
    ⟨hid, -⟩ | ⟨g, m, rest, he, hmne, hmatch, -, -⟩
  · exact hid
  · exfalso
    have h1 := (scanM_append_false r g q (m ++ rest)).mp (by rw [← he]; exact h)
    have h2 : hasMAt r (lastO q g) (m ++ rest) = true := by
      simp [hasMAt, hmatch]
    cases m with
    | nil => exact hmne rfl
    | cons c t =>
      have h4 := Bool.or_eq_false_iff.mp
        (show (hasMAt r (lastO q g) (c :: (t ++ rest)) || scanM r (some c) (t ++ rest)) = false
          from h1.2)
      exact Bool.false_ne_true (h4.1.symm.trans h2)

theorem email_pack4 {n : Nat} {q q' : Option Char} {s s' : List Char}
    (h : MStep (emailRE n) (q, s) (q', s')) :
    isBoundary q s = true ∧ wordO q' = true ∧ wordO (headO s') = false ∧
    (∃ u, s = u ++ s' ∧ u ≠ [] ∧ q' = lastO q u ∧ ∀ c ∈ u, c ≠ '[') :=
  ⟨(email_pack h).1, (email_pack h).2.1, (email_pack h).2.2.1, (email_pack h).2.2.2.1⟩

theorem phone_pack4 {q q' : Option Char} {s s' : List Char}
    (h : MStep phoneRE (q, s) (q', s')) :
    isBoundary q s = true ∧ wordO q' = true ∧ wordO (headO s') = false ∧
    (∃ u, s = u ++ s' ∧ u ≠ [] ∧ q' = lastO q u ∧ ∀ c ∈ u, c ≠ '[') :=
  ⟨(phone_pack h).1, (phone_pack h).2.1, (phone_pack h).2.2.1, (phone_pack h).2.2.2.1⟩

theorem ip_pack4 {q q' : Option Char} {s s' : List Char}
    (h : MStep ipRE (q, s) (q', s')) :
    isBoundary q s = true ∧ wordO q' = true ∧ wordO (headO s') = false ∧
    (∃ u, s = u ++ s' ∧ u ≠ [] ∧ q' = lastO q u ∧ ∀ c ∈ u, c ≠ '[') :=
  ⟨(ip_pack h).1, (ip_pack h).2.1, (ip_pack h).2.2.1, (ip_pack h).2.2.2.1⟩

theorem email_hne {n : Nat} :
    ∀ (a b : Option Char) (x : List Char), ¬ MStep (emailRE n) (a, x) (b, x) := by
  intro a b x h
  obtain ⟨-, -, -, u, e, hune, -, -⟩ := email_pack4 h
  have h2 := congrArg List.length e
  simp at h2
  exact hune h2

theorem phone_hne :
    ∀ (a b : Option Char) (x : List Char), ¬ MStep phoneRE (a, x) (b, x) := by
  intro a b x h
  obtain ⟨-, -, -, u, e, hune, -, -⟩ := phone_pack4 h
  have h2 := congrArg List.length e
  simp at h2
  exact hune h2

theorem ip_hne :
    ∀ (a b : Option Char) (x : List Char), ¬ MStep ipRE (a, x) (b, x) := by
  intro a b x h
  obtain ⟨-, -, -, u, e, hune, -, -⟩ := ip_pack4 h
  have h2 := congrArg List.length e
  simp at h2
  exact hune h2

theorem htok_phone_generic {T : List Char}
    (hT : ∀ c ∈ T, (c = '+' ∨ isDigitChar c = true) → False) :
    ∀ (q : Option Char) (T1 T2 cont : List Char), T = T1 ++ T2 → T2 ≠ [] →
      hasMAt phoneRE q (T2 ++ cont) = false := by
  intro q T1 T2 cont hsplit hne
  apply phone_token_fail
  intro c z hcz hc
  cases T2 with
  | nil => exact hne rfl
  | cons d t =>
    rw [List.cons_append] at hcz
    injection hcz with h1 h2
    apply hT c
    · rw [hsplit, ← h1]
      exact List.mem_append_right T1 (List.mem_cons_self _ _)
    · exact hc

theorem htok_ip_generic {T : List Char}
    (hT : ∀ c ∈ T, isDigitChar c = false) :
    ∀ (q : Option Char) (T1 T2 cont : List Char), T = T1 ++ T2 → T2 ≠ [] →
      hasMAt ipRE q (T2 ++ cont) = false := by
  intro q T1 T2 cont hsplit hne
  apply ip_token_fail
  intro c z hcz
  cases T2 with
  | nil => exact absurd rfl hne
  | cons d t =>
    rw [List.cons_append] at hcz
    injection hcz with h1 h2
    apply hT c
    rw [hsplit, ← h1]
    exact List.mem_append_right T1 (List.mem_cons_self _ _)

theorem htok_email_generic {T : List Char}
    (hat : '@' ∉ T) (hlast : T.getLast? = some ']') (n : Nat) :
    ∀ (q : Option Char) (T1 T2 cont : List Char), T = T1 ++ T2 → T2 ≠ [] →
      hasMAt (emailRE n) q (T2 ++ cont) = false := by
  intro q T1 T2 cont hsplit hne
  apply email_token_fail
  · intro hmem
    exact hat (hsplit ▸ List.mem_append_right T1 hmem)
  · refine ⟨']', ?_, by decide⟩
    have h1 : T2.getLast? = some ']' := by
      rw [hsplit, List.getLast?_append_of_ne_nil T1 hne] at hlast
      exact hlast
    exact getLast?_mem_self h1

theorem email_pass_self (s : List Char) (M : Nat) :
    scanM (emailRE M) none (pysub (emailRE s.length) ("[EMAIL REDACTED]".data) s) = false :=
  sub_clean (emailRE M) (emailRE s.length) ("[EMAIL REDACTED]".data)
    email_pack4 email_pack4
    (htok_email_generic (by decide) (by decide) M)
    (by decide) (by decide) s.length
    s.length s (le_refl _) (le_refl _) none none (.inl rfl)
    (.inl (fun q x hx h => hasMAt_email_conv hx h))

theorem email_kept_phone_pass (s : List Char) (M : Nat)
    (h : scanM (emailRE M) none s = false) :
    scanM (emailRE M) none (pysub phoneRE ("[PHONE REDACTED]".data) s) = false :=
  sub_clean (emailRE M) phoneRE ("[PHONE REDACTED]".data)
    email_pack4 phone_pack4
    (htok_email_generic (by decide) (by decide) M)
    (by decide) (by decide) s.length
    s.length s (le_refl _) (le_refl _) none none (.inl rfl) (.inr h)

theorem email_kept_ip_pass (s : List Char) (M : Nat)
    (h : scanM (emailRE M) none s = false) :
    scanM (emailRE M) none (pysub ipRE ("[IP REDACTED]".data) s) = false :=
  sub_clean (emailRE M) ipRE ("[IP REDACTED]".data)
    email_pack4 ip_pack4
    (htok_email_generic (by decide) (by decide) M)
    (by decide) (by decide) s.length
    s.length s (le_refl _) (le_refl _) none none (.inl rfl) (.inr h)

theorem phone_pass_self (s : List Char) :
    scanM phoneRE none (pysub phoneRE ("[PHONE REDACTED]".data) s) = false :=
  sub_clean phoneRE phoneRE ("[PHONE REDACTED]".data)
    phone_pack4 phone_pack4
    (htok_phone_generic (by decide))
    (by decide) (by decide) s.length
    s.length s (le_refl _) (le_refl _) none none (.inl rfl)
    (.inl (fun q x hx h => h))

theorem phone_kept_ip_pass (s : List Char)
    (h : scanM phoneRE none s = false) :
    scanM phoneRE none (pysub ipRE ("[IP REDACTED]".data) s) = false :=
  sub_clean phoneRE ipRE ("[IP REDACTED]".data)
    phone_pack4 ip_pack4
    (htok_phone_generic (by decide))
    (by decide) (by decide) s.length
    s.length s (le_refl _) (le_refl _) none none (.inl rfl) (.inr h)

theorem ip_pass_self (s : List Char) :
    scanM ipRE none (pysub ipRE ("[IP REDACTED]".data) s) = false :=
  sub_clean ipRE ipRE ("[IP REDACTED]".data)
    ip_pack4 ip_pack4
    (htok_ip_generic (by decide))
    (by decide) (by decide) s.length
    s.length s (le_refl _) (le_refl _) none none (.inl rfl)
    (.inl (fun q x hx h => h))

theorem anonymize_clean (text : List Char) :
    (∀ M, scanM (emailRE M) none (_anonymize text) = false) ∧
    scanM phoneRE none (_anonymize text) = false ∧
    scanM ipRE none (_anonymize text) = false := by
  refine ⟨fun M => ?_, ?_, ?_⟩
  · exact email_kept_ip_pass _ M (email_kept_phone_pass _ M (email_pass_self text M))
  · exact phone_kept_ip_pass _ (phone_pass_self _)
  · exact ip_pass_self _

/-- C5: the anonymizer is idempotent.  Redacting already-redacted text is
a no-op: the substitution tokens contain no email-, phone- or IP-shaped
substrings, replacements never create new word boundaries, and the passes
run in a fixed order, so a second application of `_anonymize` finds no
match in any of its three passes. -/
theorem C5_anonymize_idempotent (text : List Char) :
    _anonymize (_anonymize text) = _anonymize text := by
  obtain ⟨he, hp, hi⟩ := anonymize_clean text
  show pysub ipRE ("[IP REDACTED]".data)
      (pysub phoneRE ("[PHONE REDACTED]".data)
        (pysub (emailRE (_anonymize text).length) ("[EMAIL REDACTED]".data) (_anonymize text)))
    = _anonymize text
  rw [show pysub (emailRE (_anonymize text).length) ("[EMAIL REDACTED]".data) (_anonymize text)
        = _anonymize text from
      sub_id_of_clean _ _ email_hne none _ (he _)]
  rw [show pysub phoneRE ("[PHONE REDACTED]".data) (_anonymize text) = _anonymize text from
      sub_id_of_clean _ _ phone_hne none _ hp]
  exact sub_id_of_clean _ _ ip_hne none _ hi
